import Mathlib

/-!
Particle swarm optimisation (pso.h, problems.h, pso.c): a shallow embedding.

Numeric model.  The C code computes on `double`.  Here a `double` that holds a
coordinate, a velocity, a coefficient or a random draw is an exact rational
number, and a `double` that holds a cost (`p_val`, the result of an objective,
`p_glob_val`) is a rational number or `INFINITY` (`⊤` of `WithTop ℚ`).
Rounding, overflow, `-INFINITY` and NaN are outside this model.

Memory model.  A `vec_t` is the list of its elements (`size` is the length).
A function that writes through a pointer returns the new contents.  A failed
`assert`, a division by zero or an access outside a vector makes the function
return `none`.

Random numbers.  The thread-local generator is an explicit state, the stream of
its future draws; every function that draws takes the state and returns the
advanced state.

Threads.  One iteration of all workers is modelled as the particle loops of the
workers run one after the other in the order of `tid`, followed by the block that
worker 0 runs between the two barriers.
-/

namespace PSO

/-- The elements of a `vec_t`; `size` is the length of the list. -/
abbrev Vec := List ℚ

/-- A cost: a finite number or `INFINITY`. -/
abbrev Cost := WithTop ℚ

/-- The constant `INFINITY` of math.h. -/
def INFINITY : Cost := ⊤

/-- The generator state behind `random_data`: the stream of the draws still to
come.  `drand48_r` of the C library is not part of the repository. -/
abbrev Rng := Nat → ℚ

/-- One call `drand48_r(random_data, &r)`: the draw and the advanced state. -/
def drand48_r (rng : Rng) : ℚ × Rng := (rng 0, fun n => rng (n + 1))

/-- The loop `for (size_t i = start; i < start + n; ++i) body`, with a body that may fail;
the first argument counts the iterations still to run. -/
def forLoop {σ : Type} (body : Nat → σ → Option σ) : Nat → Nat → σ → Option σ
  | 0, _, s => some s
  | n + 1, i, s => (body i s).bind (forLoop body n (i + 1))

/-- The struct `interval_t`. -/
structure interval_t where
  start : ℚ
  «end» : ℚ
deriving DecidableEq

/-- The write `vec->elements[i] = val`; outside the vector it fails. -/
def vec_set (vec : Vec) (i : Nat) (val : ℚ) : Option Vec :=
  if i < vec.length then some (vec.set i val) else none

/-- `new_vec(size)`: a vector of `size` elements.  The C code leaves the
elements uninitialised; every caller overwrites them before reading, and the
model fills them with 0. -/
def new_vec (size : Nat) : Vec := List.replicate size 0

/-- `copy_vec(src, dest)`: the new contents of `dest`. -/
def copy_vec (src dest : Vec) : Option Vec :=
  if src.length = dest.length then some src else none

/-- `rand_vec(size, vec)`: `vec = none` is the NULL pointer. Returns the new
contents of the vector and the advanced generator. -/
def rand_vec (size : Nat) (vec : Option Vec) (rng : Rng) : Option (Vec × Rng) :=
  let vec0 : Vec := match vec with
    | none => new_vec size
    | some w => w
  forLoop (fun i (s : Vec × Rng) =>
      let r := drand48_r s.2
      (vec_set s.1 i r.1).map (fun w => (w, r.2)))
    size 0 (vec0, rng)

/-- `rand_vec_in_interval(size, interval, vec)`. -/
def rand_vec_in_interval (size : Nat) (interval : interval_t) (vec : Option Vec) (rng : Rng) :
    Option (Vec × Rng) :=
  (rand_vec size vec rng).bind fun s0 =>
    forLoop (fun i (s : Vec × Rng) =>
        let r := drand48_r s.2
        (vec_set s.1 i (interval.start + (interval.«end» - interval.start) * r.1)).map
          (fun w => (w, r.2)))
      size 0 s0

/-- `member_prod(v1, v2, res)`: the new contents of `res`.  Iteration `i` reads
index `i` of the operands before it writes index `i` of `res` and touches no
other index, so the operands are read from their values at the call also when
`res` is one of them. -/
def member_prod (v1 v2 res : Vec) : Option Vec :=
  if v1.length = v2.length ∧ v2.length = res.length then
    forLoop (fun i r => v1[i]?.bind fun x => v2[i]?.bind fun y => vec_set r i (x * y))
      v1.length 0 res
  else none

/-- `member_sum(v1, v2, res)`: the new contents of `res`. -/
def member_sum (v1 v2 res : Vec) : Option Vec :=
  if v1.length = v2.length ∧ v2.length = res.length then
    forLoop (fun i r => v1[i]?.bind fun x => v2[i]?.bind fun y => vec_set r i (x + y))
      v1.length 0 res
  else none

/-- `member_diff(v1, v2, res)`: the new contents of `res`. -/
def member_diff (v1 v2 res : Vec) : Option Vec :=
  if v1.length = v2.length ∧ v2.length = res.length then
    forLoop (fun i r => v1[i]?.bind fun x => v2[i]?.bind fun y => vec_set r i (x - y))
      v1.length 0 res
  else none

/-- `scalar_prod(v1, scalar, res)`: the new contents of `res`. -/
def scalar_prod (v1 : Vec) (scalar : ℚ) (res : Vec) : Option Vec :=
  if v1.length = res.length then
    forLoop (fun i r => v1[i]?.bind fun x => vec_set r i (x * scalar)) v1.length 0 res
  else none

/-- The struct `particle_t`; a pointer to a vector is the vector's contents. -/
structure particle_t where
  p_val : Cost
  v : Vec
  x : Vec
  p : Vec
  r_loc : Vec
  r_glob : Vec
deriving DecidableEq

/-- `new_particle(size, interval)`, with the generator of the calling thread. -/
def new_particle (size : Nat) (interval : interval_t) (rng : Rng) : Option (particle_t × Rng) :=
  let v : Vec := List.replicate size 0
  (rand_vec_in_interval size interval (some (new_vec size)) rng).bind fun s =>
    (copy_vec s.1 (new_vec size)).map fun p =>
      ({ p_val := INFINITY, v := v, x := s.1, p := p,
         r_loc := new_vec size, r_glob := new_vec size }, s.2)

/-- `evaluate_particle(particle, evaluation_func)`: the particle after the call. -/
def evaluate_particle (particle : particle_t) (evaluation_func : particle_t → Cost) :
    Option particle_t :=
  let res := evaluation_func particle
  if particle.p_val = INFINITY ∨ res < particle.p_val then
    (copy_vec particle.x particle.p).map fun p => { particle with p_val := res, p := p }
  else some particle

/-- `find_min(particles, num_particles, &optimum_location, &optimum)`: the pair
`(*optimum_location, *optimum)` after the call. -/
def find_min (particles : List particle_t) (num_particles : Nat) : Option (Vec × Cost) :=
  particles[0]?.bind fun particle =>
    forLoop (fun i (s : Vec × Cost) =>
        particles[i]?.map fun particle =>
          if particle.p_val < s.2 then (particle.p, particle.p_val) else s)
      (num_particles - 1) 1 (particle.p, particle.p_val)

/-- `step(a, b_loc, b_glob, particle, p_glob)`, with the generator of the
calling thread: the particle and the generator after the call. -/
def step (a b_loc b_glob : ℚ) (particle : particle_t) (p_glob : Vec) (rng : Rng) :
    Option (particle_t × Rng) :=
  if particle.v.length = particle.p.length ∧ particle.p.length = p_glob.length then
    let dimensions := particle.x.length
    (rand_vec dimensions (some particle.r_loc) rng).bind fun s1 =>
    (rand_vec dimensions (some particle.r_glob) s1.2).bind fun s2 =>
    (scalar_prod particle.v a particle.v).bind fun v =>
    (scalar_prod s1.1 b_loc s1.1).bind fun r_loc =>
    (member_diff particle.p particle.x (new_vec dimensions)).bind fun local_opt_attraction =>
    (member_prod local_opt_attraction r_loc local_opt_attraction).bind fun local_opt_attraction =>
    (scalar_prod s2.1 b_glob s2.1).bind fun r_glob =>
    (member_diff p_glob particle.x (new_vec dimensions)).bind fun global_opt_attraction =>
    (member_prod global_opt_attraction r_glob global_opt_attraction).bind
      fun global_opt_attraction =>
    (member_sum v local_opt_attraction v).bind fun v =>
    (member_sum v global_opt_attraction v).bind fun v =>
    (member_sum particle.x v particle.x).map fun x =>
      ({ particle with v := v, x := x, r_loc := r_loc, r_glob := r_glob }, s2.2)
  else none

/-! ## problems.h -/

def sphere_interval : interval_t := ⟨-500, 500⟩

/-- The loop of `sphere_func` from element `i` on, given the elements from `i` on. -/
def sphere_loop : List ℚ → ℚ → Cost
  | [], sum => (sum : ℚ)
  | x :: rest, sum =>
    if x < sphere_interval.start ∨ x > sphere_interval.«end» then INFINITY
    else sphere_loop rest (sum + x ^ 2)

/-- `sphere_func(particle)`. -/
def sphere_func (particle : particle_t) : Cost := sphere_loop particle.x 0

def rosenbrock_interval : interval_t := ⟨-30, 30⟩

/-- The loop of `rosenbrock_func` from element `i` on, given the elements from `i` on:
it runs while a next element exists (`i < size - 1`). -/
def rosenbrock_loop : List ℚ → ℚ → Cost
  | x :: next_x :: rest, sum =>
    if x < rosenbrock_interval.start ∨ x > rosenbrock_interval.«end»
        ∨ next_x < rosenbrock_interval.start ∨ next_x > rosenbrock_interval.«end» then INFINITY
    else rosenbrock_loop (next_x :: rest) (sum + (100 * (next_x - x ^ 2) ^ 2 + (1 - x) ^ 2))
  | _, sum => (sum : ℚ)

/-- `rosenbrock_func(particle)`.  With `size = 0` the bound `size - 1` of the loop wraps to
the largest `size_t` and the first iteration reads outside the vector. -/
def rosenbrock_func (particle : particle_t) : Option Cost :=
  if particle.x.length = 0 then none else some (rosenbrock_loop particle.x 0)

def rastrigin_interval : interval_t := ⟨-512 / 100, 512 / 100⟩

/-- The loop of `rastrigin_func`; `cos` and `M_PI` of math.h are parameters. -/
def rastrigin_loop (cos : ℚ → ℚ) (M_PI : ℚ) : List ℚ → ℚ → Cost
  | [], sum => (sum : ℚ)
  | x :: rest, sum =>
    if x < rastrigin_interval.start ∨ x > rastrigin_interval.«end» then INFINITY
    else rastrigin_loop cos M_PI rest (sum + (x ^ 2 - 10 * cos (2 * M_PI * x)))

/-- `rastrigin_func(particle)`: the loop's early `return INFINITY`, or `10 * size + sum`. -/
def rastrigin_func (cos : ℚ → ℚ) (M_PI : ℚ) (particle : particle_t) : Cost :=
  match rastrigin_loop cos M_PI particle.x 0 with
  | none => INFINITY
  | some sum => ((10 * (particle.x.length : ℚ) + sum : ℚ) : Cost)

def schwefel_interval : interval_t := ⟨-500, 500⟩

/-- The loop of `schwefel_func`; `sin` and `sqrt` of math.h are parameters. -/
def schwefel_loop (sin sqrt : ℚ → ℚ) : List ℚ → ℚ → Cost
  | [], sum => (sum : ℚ)
  | x :: rest, sum =>
    if x < schwefel_interval.start ∨ x > schwefel_interval.«end» then INFINITY
    else schwefel_loop sin sqrt rest (sum + -1 * x * sin (sqrt |x|))

/-- `schwefel_func(particle)`. -/
def schwefel_func (sin sqrt : ℚ → ℚ) (particle : particle_t) : Cost :=
  schwefel_loop sin sqrt particle.x 0

/-! ## pso.c -/

/-- The run parameters: the statics of pso.c that `main` sets from the command
line, with `func` for `problems[problem].func`. -/
structure Params where
  threads : Nat
  num_particles : Nat
  iterations : Nat
  a : ℚ
  b_loc : ℚ
  b_glob : ℚ
  func : particle_t → Cost

/-- The statics of pso.c that change during the run, and the thread-local
generator `random_data` of every worker, by `tid`. -/
structure State where
  particles : List particle_t
  p_glob : Vec
  p_glob_val : Cost
  random_data : Nat → Rng

/-- The body of the particle loop of `thread_func` (lines 43-44) for one particle:
`step`, then `evaluate_particle`. -/
def update_particle (cfg : Params) (p_glob : Vec) (particle : particle_t) (rng : Rng) :
    Option (particle_t × Rng) :=
  (step cfg.a cfg.b_loc cfg.b_glob particle p_glob rng).bind fun r =>
    (evaluate_particle r.1 cfg.func).map fun q => (q, r.2)

/-- The particle loop of `thread_func` (lines 33-35 and 42-45) of worker `tid`.  The
products and sums of indices stay below `num_particles` and do not wrap. -/
def particle_loop (cfg : Params) (tid : Nat) (st : State) : Option State :=
  if cfg.threads = 0 then none else
  let particles_per_thread := cfg.num_particles / cfg.threads
  let first_particle := tid * particles_per_thread
  (forLoop (fun i (s : List particle_t × Rng) =>
      s.1[i]?.bind fun particle =>
        (update_particle cfg st.p_glob particle s.2).map fun r => (s.1.set i r.1, r.2))
    particles_per_thread first_particle (st.particles, st.random_data tid)).map fun s =>
  { st with particles := s.1, random_data := Function.update st.random_data tid s.2 }

/-- The block `if (tid == 0)` of `thread_func` (lines 49-52): `find_min` and `copy_vec`. -/
def reduce (cfg : Params) (st : State) : Option State :=
  (find_min st.particles cfg.num_particles).bind fun m =>
    (copy_vec m.1 st.p_glob).map fun g => { st with p_glob := g, p_glob_val := m.2 }

/-- One iteration of the loop of `thread_func` for all workers.  Between the barriers
a worker writes only the particles of its own range and its own generator, and
nobody writes `p_glob`; the model runs the particle loops in the order of `tid`,
and then the block of worker 0. -/
def iteration (cfg : Params) (st : State) : Option State :=
  (forLoop (fun tid s => particle_loop cfg tid s) cfg.threads 0 st).bind (reduce cfg)

/-- The iteration loop of `thread_func`, run for `n` iterations. -/
def iterations_loop (cfg : Params) (n : Nat) (st : State) : Option State :=
  forLoop (fun _ s => iteration cfg s) n 0 st

/-- `main` up to the creation of the workers (lines 105-134): the asserts, the
particles, the first `find_min`; `rng` is the generator of the main thread and
`workers` gives the generator of each worker. -/
def main_init (cfg : Params) (dimensions : Nat) (interval : interval_t) (rng : Rng)
    (workers : Nat → Rng) : Option State :=
  if cfg.threads = 0 then none
  else if cfg.num_particles % cfg.threads ≠ 0 then none
  else
    (forLoop (fun _ (s : List particle_t × Rng) =>
        (new_particle dimensions interval s.2).map fun r => (s.1 ++ [r.1], r.2))
      cfg.num_particles 0 ([], rng)).bind fun s =>
    (find_min s.1 cfg.num_particles).bind fun m =>
    (copy_vec m.1 (new_vec dimensions)).map fun g =>
      { particles := s.1, p_glob := g, p_glob_val := m.2, random_data := workers }

/-- `main` from the asserts to the join of the workers. -/
def main_run (cfg : Params) (dimensions : Nat) (interval : interval_t) (rng : Rng)
    (workers : Nat → Rng) : Option State :=
  (main_init cfg dimensions interval rng workers).bind (iterations_loop cfg cfg.iterations)

/-! ## Scenarios of the specification -/

/-- A sequence of `evaluate_particle` calls on one particle: before each call the
position is set to the next element of the list.  Returns the particle after each call. -/
def evaluate_calls (evaluation_func : particle_t → Cost) :
    particle_t → List Vec → Option (List particle_t)
  | _, [] => some []
  | particle, x :: xs =>
    (evaluate_particle { particle with x := x } evaluation_func).bind fun q =>
      (evaluate_calls evaluation_func q xs).map fun rest => q :: rest

/-- Every component of the vector lies in the closed interval. -/
def in_interval (interval : interval_t) (x : Vec) : Prop :=
  ∀ c ∈ x, interval.start ≤ c ∧ c ≤ interval.«end»

instance (interval : interval_t) (x : Vec) : Decidable (in_interval interval x) := by
  unfold in_interval
  infer_instance

/-- All vectors of the particle have `d` elements. -/
def sized (d : Nat) (q : particle_t) : Prop :=
  q.v.length = d ∧ q.x.length = d ∧ q.p.length = d ∧ q.r_loc.length = d ∧ q.r_glob.length = d

instance (d : Nat) (q : particle_t) : Decidable (sized d q) := by
  unfold sized
  infer_instance

/-- The particle is as `new_particle(size, interval)` leaves it, at a position inside
the interval: `p_val` is `INFINITY`, the velocity is zero, the personal best position is
the position. -/
def created (size : Nat) (interval : interval_t) (q : particle_t) : Prop :=
  q.p_val = INFINITY ∧ q.v = List.replicate size 0 ∧ q.p = q.x ∧ sized size q ∧
    in_interval interval q.x

instance (size : Nat) (interval : interval_t) (q : particle_t) :
    Decidable (created size interval q) := by
  unfold created
  infer_instance

/-- The state of a run of `num_particles > 0` particles of dimension `d`. -/
def sized_state (cfg : Params) (d : Nat) (st : State) : Prop :=
  0 < cfg.threads ∧ 0 < cfg.num_particles ∧ st.particles.length = cfg.num_particles ∧
    st.p_glob.length = d ∧ ∀ q ∈ st.particles, sized d q

/-- The particle `q1` is what the body of the particle loop makes of `q` under the
global best `p_glob`, for some state of the generator. -/
def updated (cfg : Params) (p_glob : Vec) (q q1 : particle_t) : Prop :=
  ∃ rng rng1, update_particle cfg p_glob q rng = some (q1, rng1)

/-- The invariant of the iterations: the global best position lies in the
interval, so does the personal best position of every particle whose `p_val` is finite,
and while every `p_val` is `INFINITY` the first particle rests at the global best. -/
def run_invariant (cfg : Params) (d : Nat) (interval : interval_t) (st : State) : Prop :=
  sized_state cfg d st ∧ in_interval interval st.p_glob ∧
    (∀ q ∈ st.particles, q.p_val ≠ INFINITY → in_interval interval q.p) ∧
    ((∀ q ∈ st.particles, q.p_val = INFINITY) →
      ∃ q0, st.particles[0]? = some q0 ∧ q0.v = List.replicate d 0 ∧ q0.x = st.p_glob ∧
        q0.p = st.p_glob)

/-- The local `particles_per_thread` of `thread_func` (line 33). -/
def particles_per_thread (cfg : Params) : Nat := cfg.num_particles / cfg.threads

/-- The local `first_particle` of `thread_func` for worker `tid` (line 34). -/
def first_particle (cfg : Params) (tid : Nat) : Nat := tid * particles_per_thread cfg

/-- The local `last_particle` of `thread_func` for worker `tid` (line 35). -/
def last_particle (cfg : Params) (tid : Nat) : Nat :=
  first_particle cfg tid + particles_per_thread cfg

/-- `print_vec(vec)`: the text written to the standard output, or `none` when
`vec->elements[0]` is read from an empty vector; `fmt` is the rendering of one number
by `%g`.  There is no `return` in the branch `vec->size == 1`. -/
def print_vec (fmt : ℚ → String) (vec : Vec) : Option String :=
  vec[0]?.bind fun e0 =>
    let out1 : String := if vec.length = 1 then "\x7b" ++ fmt e0 ++ "\x7d" else ""
    let out2 : String := out1 ++ "\x7b" ++ fmt e0
    (forLoop (fun i (out : String) => vec[i]?.map fun e => out ++ ", " ++ fmt e)
      (vec.length - 1) 1 out2).map fun out => out ++ "\x7d"

/-- The text that the specification gives for a vector: one list in braces, the
elements separated by a comma and a blank. -/
def brace_list (fmt : ℚ → String) (vec : Vec) : String :=
  "\x7b" ++ ", ".intercalate (vec.map fmt) ++ "\x7d"

/-- The workers of a partitioned run and the single worker of a run with one worker draw
the same numbers for every particle in every iteration.  With `2 * d` draws per `step`,
the particle at place `j` of the range of worker `tid` takes, in iteration `k` counted
from the current state, the draws from position
`(k * particles_per_thread + j) * (2 * d)` of the generator of worker `tid`; in the run
with one worker the same particle, at index `tid * particles_per_thread + j`, takes the
draws from position `(k * num_particles + tid * particles_per_thread + j) * (2 * d)`. -/
def same_draws (cfg : Params) (d : Nat) (workers : Nat → Rng) (single : Rng) : Prop :=
  ∀ tid k j m : Nat, tid < cfg.threads → j < cfg.num_particles / cfg.threads → m < 2 * d →
    workers tid ((k * (cfg.num_particles / cfg.threads) + j) * (2 * d) + m)
      = single ((k * cfg.num_particles + tid * (cfg.num_particles / cfg.threads) + j)
          * (2 * d) + m)

/-! ## Loops that fill a vector -/

theorem forLoop_set_spec (body : Nat → Vec → Option Vec) (g : Nat → ℚ) :
    ∀ (n k : Nat) (r : Vec), k + n ≤ r.length →
      (∀ i (w : Vec), k ≤ i → i < k + n → i < w.length → body i w = some (w.set i (g i))) →
      ∃ out, forLoop body n k r = some out ∧ out.length = r.length ∧
        (∀ j, k ≤ j → j < k + n → out[j]? = some (g j)) ∧
        (∀ j, j < k ∨ k + n ≤ j → out[j]? = r[j]?) := by
  intro n
  induction n with
  | zero =>
    intro k r _ _
    refine ⟨r, rfl, rfl, ?_, ?_⟩
    · intro j h1 h2; omega
    · intro j _; rfl
  | succ n ih =>
    intro k r hk hbody
    have hb := hbody k r (le_refl k) (by omega) (by omega)
    obtain ⟨out, hc, hlen, hin, hout⟩ := ih (k + 1) (r.set k (g k))
      (by simp only [List.length_set]; omega)
      (fun i w h1 h2 h3 => hbody i w (by omega) (by omega) h3)
    refine ⟨out, ?_, ?_, ?_, ?_⟩
    · simp only [forLoop, hb, Option.some_bind]; exact hc
    · simpa using hlen
    · intro j h1 h2
      by_cases hj : j = k
      · subst hj
        rw [hout j (Or.inl (by omega))]
        simp only [List.getElem?_set]
        simp; omega
      · exact hin j (by omega) (by omega)
    · intro j hj
      rw [hout j (by omega)]
      rw [List.getElem?_set_ne (by omega)]

theorem getElem?_eq_getD_of_lt (v : Vec) (i : Nat) (h : i < v.length) :
    v[i]? = some (v.getD i 0) := by
  rw [List.getD_eq_getElem?_getD, List.getElem?_eq_getElem h]; rfl

theorem forLoop_fill (body : Nat → Vec → Option Vec) (g : Nat → ℚ) (res : Vec)
    (hbody : ∀ i (w : Vec), i < res.length → i < w.length → body i w = some (w.set i (g i))) :
    forLoop body res.length 0 res = some ((List.range res.length).map g) := by
  obtain ⟨out, hout, hlen, hin, -⟩ := forLoop_set_spec body g res.length 0 res (by omega)
    (fun i w _ h2 h3 => hbody i w (by omega) h3)
  rw [hout]
  congr 1
  apply List.ext_getElem?
  intro j
  by_cases hj : j < res.length
  · rw [hin j (by omega) (by omega)]
    simp [hj]
  · rw [List.getElem?_eq_none (by omega), List.getElem?_eq_none (by simp; omega)]

theorem range_map_zipWith (f : ℚ → ℚ → ℚ) (v1 v2 : Vec) (n : Nat) (h1 : v1.length = n)
    (h2 : v2.length = n) :
    (List.range n).map (fun i => f (v1.getD i 0) (v2.getD i 0)) = List.zipWith f v1 v2 := by
  apply List.ext_getElem?
  intro j
  by_cases hj : j < n
  · simp [List.getElem?_zipWith, hj, getElem?_eq_getD_of_lt, h1, h2]
  · rw [List.getElem?_eq_none (by simp; omega), List.getElem?_eq_none (by simp; omega)]

theorem member_prod_eq (v1 v2 res : Vec) (h1 : v1.length = v2.length)
    (h2 : v2.length = res.length) :
    member_prod v1 v2 res = some (List.zipWith (fun x y => x * y) v1 v2) := by
  have hn : v1.length = res.length := h1.trans h2
  rw [member_prod, if_pos ⟨h1, h2⟩, hn,
    forLoop_fill _ (fun i => v1.getD i 0 * v2.getD i 0) res,
    range_map_zipWith (fun x y => x * y) v1 v2 res.length hn h2]
  intro i w hi hw
  simp [getElem?_eq_getD_of_lt, hi, hw, hn, h2, vec_set]

theorem member_sum_eq (v1 v2 res : Vec) (h1 : v1.length = v2.length)
    (h2 : v2.length = res.length) :
    member_sum v1 v2 res = some (List.zipWith (fun x y => x + y) v1 v2) := by
  have hn : v1.length = res.length := h1.trans h2
  rw [member_sum, if_pos ⟨h1, h2⟩, hn,
    forLoop_fill _ (fun i => v1.getD i 0 + v2.getD i 0) res,
    range_map_zipWith (fun x y => x + y) v1 v2 res.length hn h2]
  intro i w hi hw
  simp [getElem?_eq_getD_of_lt, hi, hw, hn, h2, vec_set]

theorem member_diff_eq (v1 v2 res : Vec) (h1 : v1.length = v2.length)
    (h2 : v2.length = res.length) :
    member_diff v1 v2 res = some (List.zipWith (fun x y => x - y) v1 v2) := by
  have hn : v1.length = res.length := h1.trans h2
  rw [member_diff, if_pos ⟨h1, h2⟩, hn,
    forLoop_fill _ (fun i => v1.getD i 0 - v2.getD i 0) res,
    range_map_zipWith (fun x y => x - y) v1 v2 res.length hn h2]
  intro i w hi hw
  simp [getElem?_eq_getD_of_lt, hi, hw, hn, h2, vec_set]

theorem scalar_prod_eq (v1 : Vec) (scalar : ℚ) (res : Vec) (h : v1.length = res.length) :
    scalar_prod v1 scalar res = some (v1.map (fun x => x * scalar)) := by
  rw [scalar_prod, if_pos h, h, forLoop_fill _ (fun i => v1.getD i 0 * scalar) res]
  · congr 1
    apply List.ext_getElem?
    intro j
    by_cases hj : j < res.length
    · simp [hj, getElem?_eq_getD_of_lt, h]
    · rw [List.getElem?_eq_none (by simp; omega), List.getElem?_eq_none (by simp; omega)]
  · intro i w hi hw
    simp [getElem?_eq_getD_of_lt, hi, hw, h, vec_set]



/-- C10: for operands `a`, `b` and a result vector of one length `n`, `member_sum`,
`member_diff` and `member_prod` return a vector of length `n` whose element `i` is
`a[i] + b[i]`, `a[i] - b[i]`, `a[i] * b[i]`, and `scalar_prod a k` one whose element `i`
is `a[i] * k`. -/
theorem vector_ops_elementwise (a b res : Vec) (k : ℚ) (n : Nat)
    (ha : a.length = n) (hb : b.length = n) (hr : res.length = n) :
    (∃ out, member_sum a b res = some out ∧ out.length = n ∧
      ∀ (i : Nat) (x y : ℚ), a[i]? = some x → b[i]? = some y → out[i]? = some (x + y)) ∧
    (∃ out, member_diff a b res = some out ∧ out.length = n ∧
      ∀ (i : Nat) (x y : ℚ), a[i]? = some x → b[i]? = some y → out[i]? = some (x - y)) ∧
    (∃ out, member_prod a b res = some out ∧ out.length = n ∧
      ∀ (i : Nat) (x y : ℚ), a[i]? = some x → b[i]? = some y → out[i]? = some (x * y)) ∧
    (∃ out, scalar_prod a k res = some out ∧ out.length = n ∧
      ∀ (i : Nat) (x : ℚ), a[i]? = some x → out[i]? = some (x * k)) := by
  refine ⟨⟨_, member_sum_eq a b res (ha.trans hb.symm) (hb.trans hr.symm), ?_, ?_⟩,
    ⟨_, member_diff_eq a b res (ha.trans hb.symm) (hb.trans hr.symm), ?_, ?_⟩,
    ⟨_, member_prod_eq a b res (ha.trans hb.symm) (hb.trans hr.symm), ?_, ?_⟩,
    ⟨_, scalar_prod_eq a k res (ha.trans hr.symm), ?_, ?_⟩⟩
  · simp [ha, hb]
  · intro i x y hx hy; simp [List.getElem?_zipWith, hx, hy]
  · simp [ha, hb]
  · intro i x y hx hy; simp [List.getElem?_zipWith, hx, hy]
  · simp [ha, hb]
  · intro i x y hx hy; simp [List.getElem?_zipWith, hx, hy]
  · simp [ha]
  · intro i x hx; simp [hx]

theorem vector_ops_elementwise_witness :
    ([1, 2] : Vec).length = 2 ∧ ([3, 4] : Vec).length = 2 ∧ ([0, 0] : Vec).length = 2 ∧
    (∃ out, member_sum [1, 2] [3, 4] [0, 0] = some out ∧ out.length = 2 ∧
      ∀ (i : Nat) (x y : ℚ), ([1, 2] : Vec)[i]? = some x → ([3, 4] : Vec)[i]? = some y →
        out[i]? = some (x + y)) :=
  ⟨rfl, rfl, rfl, (vector_ops_elementwise [1, 2] [3, 4] [0, 0] 5 2 rfl rfl rfl).1⟩

/-! ## find_min -/

theorem find_min_loop (ps : List particle_t) :
    ∀ (n i k : Nat) (q : particle_t), i + n ≤ ps.length → k < i → ps[k]? = some q →
      (∀ (j : Nat) (r : particle_t), j < i → ps[j]? = some r → q.p_val ≤ r.p_val) →
      (∀ (j : Nat) (r : particle_t), j < k → ps[j]? = some r → q.p_val < r.p_val) →
      ∃ (m : Nat) (w : particle_t), ps[m]? = some w ∧
        forLoop (fun i (s : Vec × Cost) =>
            ps[i]?.map fun particle =>
              if particle.p_val < s.2 then (particle.p, particle.p_val) else s)
          n i (q.p, q.p_val) = some (w.p, w.p_val) ∧
        (∀ (j : Nat) (r : particle_t), j < i + n → ps[j]? = some r → w.p_val ≤ r.p_val) ∧
        (∀ (j : Nat) (r : particle_t), j < m → ps[j]? = some r → w.p_val < r.p_val) := by
  intro n
  induction n with
  | zero =>
    intro i k q _ _ hq hle hlt
    exact ⟨k, q, hq, rfl, fun j r hj => hle j r (by omega), hlt⟩
  | succ n ih =>
    intro i k q hlen hk hq hle hlt
    have hi : i < ps.length := by omega
    have hget : ps[i]? = some ps[i] := List.getElem?_eq_getElem hi
    by_cases hc : ps[i].p_val < q.p_val
    · obtain ⟨m, w, hw, hrun, hle2, hlt2⟩ := ih (i + 1) i ps[i] (by omega) (by omega) hget
        (fun j r hj hr => by
          by_cases hji : j = i
          · subst hji; rw [hget] at hr; cases hr; exact le_refl _
          · exact le_trans (le_of_lt hc) (hle j r (by omega) hr))
        (fun j r hj hr => lt_of_lt_of_le hc (hle j r hj hr))
      refine ⟨m, w, hw, ?_, fun j r hj => hle2 j r (by omega), hlt2⟩
      simp only [forLoop, hget, Option.map_some', if_pos hc, Option.some_bind]
      exact hrun
    · obtain ⟨m, w, hw, hrun, hle2, hlt2⟩ := ih (i + 1) k q (by omega) (by omega) hq
        (fun j r hj hr => by
          by_cases hji : j = i
          · subst hji; rw [hget] at hr; cases hr; exact not_lt.mp hc
          · exact hle j r (by omega) hr)
        hlt
      refine ⟨m, w, hw, ?_, fun j r hj => hle2 j r (by omega), hlt2⟩
      simp only [forLoop, hget, Option.map_some', if_neg hc, Option.some_bind]
      exact hrun

theorem find_min_spec (particles : List particle_t) (hne : particles ≠ []) :
    ∃ (m : Nat) (w : particle_t), particles[m]? = some w ∧
      find_min particles particles.length = some (w.p, w.p_val) ∧
      (∀ (j : Nat) (r : particle_t), particles[j]? = some r → w.p_val ≤ r.p_val) ∧
      (∀ (j : Nat) (r : particle_t), j < m → particles[j]? = some r → w.p_val < r.p_val) := by
  cases particles with
  | nil => exact absurd rfl hne
  | cons q0 rest =>
    obtain ⟨m, w, hw, hrun, hle, hlt⟩ := find_min_loop (q0 :: rest) rest.length 1 0 q0
      (by simp; omega) (by omega) (by simp)
      (fun j r hj hr => by
        have : j = 0 := by omega
        subst this; simp at hr; subst hr; exact le_refl _)
      (fun j r hj => by omega)
    refine ⟨m, w, hw, ?_, ?_, hlt⟩
    · simpa [find_min] using hrun
    · intro j r hr
      have hj : j < (q0 :: rest).length := by
        by_contra hcon
        rw [List.getElem?_eq_none (by omega)] at hr
        cases hr
      exact hle j r (by simp at hj ⊢; omega) hr

/-- C1: on a non-empty swarm `find_min` returns the personal best position and value of
a particle `w` at an index `m` such that `w.p_val` is at most every particle's `p_val`
and strictly below the `p_val` of every particle before index `m`; for values
`[5, 2, 2]` it returns the second particle's position and the value 2. -/
theorem find_min_first_minimum (particles : List particle_t) (hne : particles ≠ []) :
    (∃ (m : Nat) (w : particle_t), particles[m]? = some w ∧
      find_min particles particles.length = some (w.p, w.p_val) ∧
      (∀ (j : Nat) (r : particle_t), particles[j]? = some r → w.p_val ≤ r.p_val) ∧
      (∀ (j : Nat) (r : particle_t), j < m → particles[j]? = some r → w.p_val < r.p_val)) ∧
    (∀ q0 q1 q2 : particle_t, q0.p_val = ((5 : ℚ) : Cost) → q1.p_val = ((2 : ℚ) : Cost) →
      q2.p_val = ((2 : ℚ) : Cost) → find_min [q0, q1, q2] 3 = some (q1.p, ((2 : ℚ) : Cost))) := by
  refine ⟨find_min_spec particles hne, ?_⟩
  intro q0 q1 q2 h0 h1 h2
  have h10 : q1.p_val < q0.p_val := by
    rw [h0, h1]; exact WithTop.coe_lt_coe.mpr (by norm_num)
  have h10n : (2 : Cost) < q0.p_val := by rw [h1] at h10; exact h10
  simp [find_min, forLoop, h10n, h1, h2]

theorem find_min_first_minimum_witness :
    ([⟨5, [0], [1], [10], [0], [0]⟩, ⟨2, [0], [1], [20], [0], [0]⟩,
        ⟨2, [0], [1], [30], [0], [0]⟩] : List particle_t) ≠ [] ∧
    find_min [⟨5, [0], [1], [10], [0], [0]⟩, ⟨2, [0], [1], [20], [0], [0]⟩,
        ⟨2, [0], [1], [30], [0], [0]⟩] 3 = some ([20], ((2 : ℚ) : Cost)) :=
  ⟨by simp, (find_min_first_minimum [⟨5, [0], [1], [10], [0], [0]⟩,
      ⟨2, [0], [1], [20], [0], [0]⟩, ⟨2, [0], [1], [30], [0], [0]⟩] (by simp)).2
      ⟨5, [0], [1], [10], [0], [0]⟩ ⟨2, [0], [1], [20], [0], [0]⟩
      ⟨2, [0], [1], [30], [0], [0]⟩ rfl rfl rfl⟩

/-! ## Random vectors and the update step -/

theorem forLoop_draw_spec (h : ℚ → ℚ) :
    ∀ (n k : Nat) (r : Vec) (rng : Rng), k + n ≤ r.length →
      ∃ out, forLoop (fun i (s : Vec × Rng) =>
            let d := drand48_r s.2
            (vec_set s.1 i (h d.1)).map (fun w => (w, d.2)))
          n k (r, rng) = some (out, fun m => rng (m + n)) ∧ out.length = r.length ∧
        (∀ j, k ≤ j → j < k + n → out[j]? = some (h (rng (j - k)))) ∧
        (∀ j, j < k ∨ k + n ≤ j → out[j]? = r[j]?) := by
  intro n
  induction n with
  | zero =>
    intro k r rng _
    refine ⟨r, rfl, rfl, ?_, ?_⟩
    · intro j h1 h2; omega
    · intro j _; rfl
  | succ n ih =>
    intro k r rng hk
    obtain ⟨out, hc, hlen, hin, hout⟩ := ih (k + 1) (r.set k (h (rng 0))) (fun m => rng (m + 1))
      (by simp only [List.length_set]; omega)
    refine ⟨out, ?_, ?_, ?_, ?_⟩
    · have hlt : k < r.length := by omega
      simp only [drand48_r, vec_set] at hc
      simp only [forLoop, drand48_r, vec_set, if_pos hlt, Option.map_some', Option.some_bind]
      rw [hc]
      rfl
    · simpa using hlen
    · intro j h1 h2
      by_cases hj : j = k
      · subst hj
        rw [hout j (Or.inl (by omega))]
        simp only [List.getElem?_set]
        simp; omega
      · rw [hin j (by omega) (by omega)]
        congr 3
        omega
    · intro j hj
      rw [hout j (by omega)]
      rw [List.getElem?_set_ne (by omega)]

theorem rand_vec_eq (size : Nat) (vec : Vec) (rng : Rng) (hlen : vec.length = size) :
    rand_vec size (some vec) rng = some ((List.range size).map rng, fun m => rng (m + size)) := by
  obtain ⟨out, hrun, hl, hin, -⟩ := forLoop_draw_spec (fun y => y) size 0 vec rng (by omega)
  have : out = (List.range size).map rng := by
    apply List.ext_getElem?
    intro j
    by_cases hj : j < size
    · rw [hin j (by omega) (by omega)]
      simp [hj]
    · rw [List.getElem?_eq_none (by omega), List.getElem?_eq_none (by simp; omega)]
  rw [← this]
  exact hrun

theorem step_eq (a b_loc b_glob : ℚ) (particle : particle_t) (p_glob : Vec) (rng : Rng)
    (d : Nat) (hv : particle.v.length = d) (hx : particle.x.length = d)
    (hp : particle.p.length = d) (hl : particle.r_loc.length = d)
    (hg : particle.r_glob.length = d) (hpg : p_glob.length = d) :
    step a b_loc b_glob particle p_glob rng =
      some ({ particle with
          v := List.zipWith (fun x y => x + y)
            (List.zipWith (fun x y => x + y) (particle.v.map (fun x => x * a))
              (List.zipWith (fun x y => x * y)
                (List.zipWith (fun x y => x - y) particle.p particle.x)
                (((List.range d).map rng).map (fun x => x * b_loc))))
            (List.zipWith (fun x y => x * y)
              (List.zipWith (fun x y => x - y) p_glob particle.x)
              (((List.range d).map (fun m => rng (m + d))).map (fun x => x * b_glob)))
          x := List.zipWith (fun x y => x + y) particle.x
            (List.zipWith (fun x y => x + y)
              (List.zipWith (fun x y => x + y) (particle.v.map (fun x => x * a))
                (List.zipWith (fun x y => x * y)
                  (List.zipWith (fun x y => x - y) particle.p particle.x)
                  (((List.range d).map rng).map (fun x => x * b_loc))))
              (List.zipWith (fun x y => x * y)
                (List.zipWith (fun x y => x - y) p_glob particle.x)
                (((List.range d).map (fun m => rng (m + d))).map (fun x => x * b_glob))))
          r_loc := ((List.range d).map rng).map (fun x => x * b_loc)
          r_glob := ((List.range d).map (fun m => rng (m + d))).map (fun x => x * b_glob) },
        fun m => rng (m + d + d)) := by
  rw [step, if_pos ⟨hv.trans hp.symm, hp.trans hpg.symm⟩]
  simp only [hx]
  rw [rand_vec_eq d particle.r_loc rng hl]
  simp only [Option.some_bind]
  rw [rand_vec_eq d particle.r_glob _ hg]
  simp only [Option.some_bind]
  rw [scalar_prod_eq _ _ _ rfl]
  simp only [Option.some_bind]
  rw [scalar_prod_eq _ _ _ rfl]
  simp only [Option.some_bind]
  rw [member_diff_eq _ _ _ (hp.trans hx.symm) (by simp [new_vec, hx])]
  simp only [Option.some_bind]
  rw [member_prod_eq _ _ _ (by simp [hp, hx]) (by simp [hp, hx])]
  simp only [Option.some_bind]
  rw [scalar_prod_eq _ _ _ rfl]
  simp only [Option.some_bind]
  rw [member_diff_eq _ _ _ (hpg.trans hx.symm) (by simp [new_vec, hx])]
  simp only [Option.some_bind]
  rw [member_prod_eq _ _ _ (by simp [hpg, hx]) (by simp [hpg, hx])]
  simp only [Option.some_bind]
  rw [member_sum_eq _ _ _ (by simp [hv, hp, hx]) (by simp [hv, hp, hx])]
  simp only [Option.some_bind]
  rw [member_sum_eq _ _ _ (by simp [hv, hp, hx, hpg]) (by simp [hv, hp, hx, hpg])]
  simp only [Option.some_bind]
  rw [member_sum_eq _ _ _ (by simp [hv, hp, hx, hpg]) (by simp [hv, hp, hx, hpg])]
  rfl

/-- C2: for a particle whose vectors, and the global best, have length `d`, and a
generator whose next draws are `u_loc` followed by `u_glob` (both of length `d`), `step`
returns a particle with `v'[i] = a*v[i] + (b_loc*u_loc[i])*(p[i]-x[i]) +
(b_glob*u_glob[i])*(g[i]-x[i])` and `x'[i] = x[i] + v'[i]` for every `i < d`, where
`v`, `x`, `p` are the values before the step. -/
theorem step_update_rule (a b_loc b_glob : ℚ) (particle : particle_t) (p_glob : Vec)
    (rng : Rng) (u_loc u_glob : Vec) (d : Nat)
    (hv : particle.v.length = d) (hx : particle.x.length = d) (hp : particle.p.length = d)
    (hl : particle.r_loc.length = d) (hg : particle.r_glob.length = d)
    (hpg : p_glob.length = d) (hul : u_loc.length = d) (hug : u_glob.length = d)
    (hrng : ∀ i : Nat, i < d + d → (u_loc ++ u_glob)[i]? = some (rng i)) :
    ∃ (q : particle_t) (rng1 : Rng),
      step a b_loc b_glob particle p_glob rng = some (q, rng1) ∧
      q.v.length = d ∧ q.x.length = d ∧
      ∀ (i : Nat) (vi xi pi gi ui wi : ℚ),
        particle.v[i]? = some vi → particle.x[i]? = some xi → particle.p[i]? = some pi →
        p_glob[i]? = some gi → u_loc[i]? = some ui → u_glob[i]? = some wi →
        q.v[i]? = some (a * vi + (b_loc * ui) * (pi - xi) + (b_glob * wi) * (gi - xi)) ∧
        q.x[i]? = some (xi + (a * vi + (b_loc * ui) * (pi - xi) + (b_glob * wi) * (gi - xi))) := by
  refine ⟨_, _, step_eq a b_loc b_glob particle p_glob rng d hv hx hp hl hg hpg, ?_, ?_, ?_⟩
  · simp [hv, hx, hp, hpg]
  · simp [hv, hx, hp, hpg]
  · intro i vi xi pi gi ui wi hvi hxi hpi hgi hui hwi
    have hi : i < d := by
      by_contra hcon
      rw [List.getElem?_eq_none (by omega)] at hvi
      cases hvi
    have h1 : rng i = ui := by
      have := hrng i (by omega)
      rw [List.getElem?_append_left (by omega), hui] at this
      exact (Option.some.inj this).symm
    have h2 : rng (i + d) = wi := by
      have := hrng (i + d) (by omega)
      rw [List.getElem?_append_right (by omega), hul] at this
      simp only [Nat.add_sub_cancel, hwi] at this
      exact (Option.some.inj this).symm
    simp only [List.getElem?_zipWith, List.getElem?_map, hvi, hxi, hpi, hgi,
      List.getElem?_range hi, Option.map_some', Option.some_bind, Option.bind_some, h1, h2]
    constructor
    · congr 1; ring
    · congr 1; ring

theorem step_update_rule_witness :
    ∃ (q : particle_t) (rng1 : Rng),
      step (1 / 2) 2 3 ⟨⊤, [1], [2], [4], [0], [0]⟩ [7] (fun n => if n = 0 then 1 / 4 else 1 / 2)
        = some (q, rng1) ∧
      q.v[0]? = some (1 / 2 * 1 + (2 * (1 / 4)) * (4 - 2) + (3 * (1 / 2)) * (7 - 2)) ∧
      q.x[0]? = some (2 + (1 / 2 * 1 + (2 * (1 / 4)) * (4 - 2) + (3 * (1 / 2)) * (7 - 2))) := by
  obtain ⟨q, rng1, h, -, -, hall⟩ := step_update_rule (1 / 2) 2 3 ⟨⊤, [1], [2], [4], [0], [0]⟩ [7]
    (fun n => if n = 0 then 1 / 4 else 1 / 2) [1 / 4] [1 / 2] 1 rfl rfl rfl rfl rfl rfl rfl rfl
    (by
      intro i hi
      have : i = 0 ∨ i = 1 := by omega
      rcases this with rfl | rfl <;> simp)
  exact ⟨q, rng1, h, hall 0 1 2 4 7 (1 / 4) (1 / 2) rfl rfl rfl rfl rfl rfl⟩

/-! ## evaluate_particle -/

theorem evaluate_particle_eq (particle : particle_t) (f : particle_t → Cost)
    (h : particle.x.length = particle.p.length) :
    evaluate_particle particle f =
      some (if particle.p_val = INFINITY ∨ f particle < particle.p_val
        then { particle with p_val := f particle, p := particle.x } else particle) := by
  unfold evaluate_particle
  by_cases hc : particle.p_val = INFINITY ∨ f particle < particle.p_val
  · simp only [if_pos hc, copy_vec, if_pos h, Option.map_some']
  · simp only [if_neg hc]

theorem evaluate_particle_p_val (particle q : particle_t) (f : particle_t → Cost)
    (h : evaluate_particle particle f = some q) :
    q.p_val = if f particle < particle.p_val then f particle else particle.p_val := by
  unfold evaluate_particle at h
  by_cases hc : particle.p_val = INFINITY ∨ f particle < particle.p_val
  · simp only [if_pos hc, copy_vec] at h
    split at h
    · simp only [Option.map_some', Option.some.injEq] at h
      subst h
      rcases hc with hc | hc
      · by_cases hlt : f particle < particle.p_val
        · simp [hlt]
        · rw [if_neg hlt, hc]
          rw [hc] at hlt
          exact not_lt_top_iff.mp hlt
      · simp [hc]
    · simp at h
  · simp only [if_neg hc, Option.some.injEq] at h
    subst h
    rw [if_neg (fun hlt => hc (Or.inr hlt))]

/-- C4: for a particle whose position and personal best position have one length,
`evaluate_particle` returns a particle with the same position, velocity and scratch
vectors, and when the cost is strictly below `p_val` the new `p_val` is the cost and
the new personal best position is the position. -/
theorem evaluate_updates_on_improvement (particle : particle_t) (f : particle_t → Cost)
    (h : particle.x.length = particle.p.length) :
    ∃ q, evaluate_particle particle f = some q ∧
      q.x = particle.x ∧ q.v = particle.v ∧ q.r_loc = particle.r_loc ∧
      q.r_glob = particle.r_glob ∧
      (f particle < particle.p_val → q.p_val = f particle ∧ q.p = particle.x) := by
  refine ⟨_, evaluate_particle_eq particle f h, ?_⟩
  by_cases hc : particle.p_val = INFINITY ∨ f particle < particle.p_val
  · rw [if_pos hc]
    exact ⟨rfl, rfl, rfl, rfl, fun _ => ⟨rfl, rfl⟩⟩
  · rw [if_neg hc]
    exact ⟨rfl, rfl, rfl, rfl, fun hlt => absurd (Or.inr hlt) hc⟩

theorem evaluate_updates_on_improvement_witness :
    ∃ q, evaluate_particle ⟨((9 : ℚ) : Cost), [1], [2], [3], [0], [0]⟩ sphere_func = some q ∧
      q.x = [2] ∧ q.v = [1] ∧ q.p_val = ((4 : ℚ) : Cost) ∧ q.p = [2] := by
  obtain ⟨q, hq, hx, hv, -, -, himp⟩ := evaluate_updates_on_improvement
    ⟨((9 : ℚ) : Cost), [1], [2], [3], [0], [0]⟩ sphere_func rfl
  have hlt : sphere_func ⟨((9 : ℚ) : Cost), [1], [2], [3], [0], [0]⟩ < ((9 : ℚ) : Cost) := by
    decide!
  have hval : sphere_func ⟨((9 : ℚ) : Cost), [1], [2], [3], [0], [0]⟩ = ((4 : ℚ) : Cost) := by
    decide!
  exact ⟨q, hq, hx, hv, (himp hlt).1.trans hval, (himp hlt).2⟩

theorem evaluate_particle_le (particle q : particle_t) (f : particle_t → Cost)
    (h : evaluate_particle particle f = some q) : q.p_val ≤ particle.p_val := by
  rw [evaluate_particle_p_val particle q f h]
  split
  · next hlt => exact le_of_lt hlt
  · exact le_refl _

theorem evaluate_calls_cons (f : particle_t → Cost) (particle q : particle_t) (x : Vec)
    (xs : List Vec) (tr : List particle_t)
    (h1 : evaluate_particle { particle with x := x } f = some q)
    (h2 : evaluate_calls f q xs = some tr) :
    evaluate_calls f particle (x :: xs) = some (q :: tr) := by
  simp [evaluate_calls, h1, h2]

/-- C3, refuted as stated: a particle with `p_val = INFINITY`, personal best position
`[0]` and position `[600]`, outside the interval of the sphere objective, has a cost that
is not strictly below `p_val`, and `evaluate_particle` replaces its personal best
position by `[600]`. -/
theorem evaluate_replaces_best_at_infinity :
    ¬ (sphere_func ⟨INFINITY, [600], [600], [0], [0], [0]⟩ < INFINITY) ∧
    (evaluate_particle ⟨INFINITY, [600], [600], [0], [0], [0]⟩ sphere_func).map
      (fun q => (q.p_val, q.p)) = some (INFINITY, [600]) := by
  decide!

/-- C3, amended: when the cost of the position is not strictly below `p_val`, any
number of `evaluate_particle` calls at that fixed position leave `p_val` unchanged;
they leave the personal best position unchanged when `p_val` is not `INFINITY`, and
set it to the position when `p_val` is `INFINITY`. -/
theorem evaluate_no_improvement (objective : Vec → Cost) :
    ∀ (n : Nat) (particle : particle_t), particle.x.length = particle.p.length →
      ¬ objective particle.x < particle.p_val →
      ∃ tr, evaluate_calls (fun q => objective q.x) particle (List.replicate n particle.x)
          = some tr ∧ tr.length = n ∧
        ∀ q ∈ tr, q.p_val = particle.p_val ∧ (particle.p_val ≠ INFINITY → q.p = particle.p) ∧
          (particle.p_val = INFINITY → q.p = particle.x) := by
  intro n
  induction n with
  | zero =>
    intro particle _ _
    exact ⟨[], rfl, rfl, fun q hq => absurd hq (List.not_mem_nil q)⟩
  | succ n ih =>
    intro particle hlen hno
    have hstep := evaluate_particle_eq particle (fun q => objective q.x) hlen
    by_cases htop : particle.p_val = INFINITY
    · have hobj : objective particle.x = INFINITY := by
        rw [htop] at hno
        exact not_lt_top_iff.mp hno
      rw [if_pos (Or.inl htop)] at hstep
      obtain ⟨tr, htr, hl, hall⟩ :=
        ih { particle with p_val := objective particle.x, p := particle.x } rfl (by
          show ¬ objective particle.x < objective particle.x
          exact lt_irrefl _)
      refine ⟨_ :: tr, evaluate_calls_cons _ particle _ particle.x _ tr hstep htr,
        by simp [hl], ?_⟩
      · intro q hq
        rcases List.mem_cons.mp hq with rfl | hq
        · exact ⟨hobj.trans htop.symm, fun hne => absurd htop hne, fun _ => rfl⟩
        · obtain ⟨h1, -, h3⟩ := hall q hq
          exact ⟨h1.trans (hobj.trans htop.symm), fun hne => absurd htop hne,
            fun _ => h3 hobj⟩
    · rw [if_neg (fun hc => hc.elim htop hno)] at hstep
      obtain ⟨tr, htr, hl, hall⟩ := ih particle hlen hno
      refine ⟨particle :: tr, evaluate_calls_cons _ particle _ particle.x _ tr hstep htr,
        by simp [hl], ?_⟩
      · intro q hq
        rcases List.mem_cons.mp hq with rfl | hq
        · exact ⟨rfl, fun _ => rfl, fun h => absurd h htop⟩
        · exact hall q hq

theorem evaluate_no_improvement_witness :
    ¬ ((fun _ => ((5 : ℚ) : Cost)) ([2] : Vec) < ((4 : ℚ) : Cost)) ∧
    ∃ tr, evaluate_calls (fun _ => ((5 : ℚ) : Cost)) ⟨((4 : ℚ) : Cost), [1], [2], [3], [0], [0]⟩
        (List.replicate 3 [2]) = some tr ∧ tr.length = 3 ∧
      ∀ q ∈ tr, q.p_val = ((4 : ℚ) : Cost) ∧ q.p = [3] := by
  have hno : ¬ ((fun _ => ((5 : ℚ) : Cost)) ([2] : Vec) < ((4 : ℚ) : Cost)) := by decide!
  obtain ⟨tr, htr, hl, hall⟩ := evaluate_no_improvement (fun _ => ((5 : ℚ) : Cost)) 3
    ⟨((4 : ℚ) : Cost), [1], [2], [3], [0], [0]⟩ rfl hno
  exact ⟨hno, tr, htr, hl, fun q hq => ⟨(hall q hq).1, (hall q hq).2.1 (by decide!)⟩⟩

/-- C5: over any sequence of `evaluate_particle` calls, with the position set to an
arbitrary vector of the particle's dimension before each call, every call returns and
the `p_val` after each call is at most the `p_val` before it. -/
theorem p_val_non_increasing (f : particle_t → Cost) (xs : List Vec) :
    ∀ (particle : particle_t), (∀ x ∈ xs, x.length = particle.p.length) →
      ∃ tr, evaluate_calls f particle xs = some tr ∧ tr.length = xs.length ∧
        List.Chain (fun q r => r.p_val ≤ q.p_val) particle tr := by
  induction xs with
  | nil =>
    intro particle _
    exact ⟨[], rfl, rfl, List.Chain.nil⟩
  | cons x xs ih =>
    intro particle hlen
    have hx : x.length = particle.p.length := hlen x (List.mem_cons_self x xs)
    have hstep := evaluate_particle_eq { particle with x := x } f hx
    obtain ⟨tr, htr, hl, hch⟩ := ih (if particle.p_val = INFINITY ∨
        f { particle with x := x } < particle.p_val
        then { particle with x := x, p_val := f { particle with x := x }, p := x }
        else { particle with x := x }) (by
      intro y hy
      have := hlen y (List.mem_cons_of_mem x hy)
      split
      · exact this.trans hx.symm
      · exact this)
    exact ⟨_ :: tr, evaluate_calls_cons f particle _ x xs tr hstep htr, by simp [hl],
      List.Chain.cons (evaluate_particle_le { particle with x := x } _ f hstep) hch⟩

theorem p_val_non_increasing_witness :
    (∀ x ∈ ([[2], [1], [3]] : List Vec), x.length = ([3] : Vec).length) ∧
    ∃ tr, evaluate_calls sphere_func ⟨INFINITY, [1], [2], [3], [0], [0]⟩ [[2], [1], [3]]
        = some tr ∧ tr.length = 3 ∧
      List.Chain (fun q r => r.p_val ≤ q.p_val) ⟨INFINITY, [1], [2], [3], [0], [0]⟩ tr :=
  ⟨by decide, p_val_non_increasing sphere_func [[2], [1], [3]]
    ⟨INFINITY, [1], [2], [3], [0], [0]⟩ (by decide)⟩

/-! ## The objectives of problems.h -/

theorem sphere_loop_inside (xs : List ℚ) :
    ∀ sum : ℚ, (∀ c ∈ xs, -500 ≤ c ∧ c ≤ 500) →
      sphere_loop xs sum = ((sum + (xs.map (fun c => c ^ 2)).sum : ℚ) : Cost) := by
  induction xs with
  | nil => intro sum _; simp [sphere_loop]
  | cons x rest ih =>
    intro sum h
    have hx := h x (List.mem_cons_self x rest)
    have hc : ¬ (x < sphere_interval.start ∨ x > sphere_interval.«end») := by
      simp only [sphere_interval, not_or, not_lt, gt_iff_lt]
      exact hx
    rw [sphere_loop, if_neg hc, ih _ (fun c hcm => h c (List.mem_cons_of_mem x hcm))]
    simp only [List.map_cons, List.sum_cons]
    congr 1
    ring

theorem sphere_loop_outside (xs : List ℚ) :
    ∀ sum : ℚ, (∃ c ∈ xs, c < -500 ∨ 500 < c) → sphere_loop xs sum = INFINITY := by
  induction xs with
  | nil => intro sum h; obtain ⟨c, hc, -⟩ := h; cases hc
  | cons x rest ih =>
    intro sum h
    by_cases hx : x < sphere_interval.start ∨ x > sphere_interval.«end»
    · rw [sphere_loop, if_pos hx]
    · rw [sphere_loop, if_neg hx]
      apply ih
      obtain ⟨c, hc, hout⟩ := h
      rcases List.mem_cons.mp hc with rfl | hc
      · exact absurd hout hx
      · exact ⟨c, hc, hout⟩

theorem rosenbrock_loop_outside (xs : List ℚ) :
    ∀ sum : ℚ, 2 ≤ xs.length → (∃ c ∈ xs, c < -30 ∨ 30 < c) →
      rosenbrock_loop xs sum = INFINITY := by
  induction xs with
  | nil => intro sum h; simp at h
  | cons x rest ih =>
    intro sum hlen h
    cases rest with
    | nil => simp at hlen
    | cons y rest =>
      by_cases hx : x < rosenbrock_interval.start ∨ x > rosenbrock_interval.«end»
          ∨ y < rosenbrock_interval.start ∨ y > rosenbrock_interval.«end»
      · rw [rosenbrock_loop, if_pos hx]
      · rw [rosenbrock_loop, if_neg hx]
        simp only [rosenbrock_interval, not_or, not_lt, gt_iff_lt] at hx
        obtain ⟨c, hc, hout⟩ := h
        have hcr : c ∈ rest := by
          rcases List.mem_cons.mp hc with rfl | hc
          · rcases hout with h1 | h1 <;> linarith [hx.1, hx.2.1]
          · rcases List.mem_cons.mp hc with rfl | hc
            · rcases hout with h1 | h1 <;> linarith [hx.2.2.1, hx.2.2.2]
            · exact hc
        have hrest : 2 ≤ (y :: rest).length := by
          cases rest with
          | nil => cases hcr
          | cons z rest => simp
        exact ih _ hrest ⟨c, List.mem_cons_of_mem y hcr, hout⟩

theorem rastrigin_loop_outside (cos : ℚ → ℚ) (M_PI : ℚ) (xs : List ℚ) :
    ∀ sum : ℚ, (∃ c ∈ xs, c < -512 / 100 ∨ 512 / 100 < c) →
      rastrigin_loop cos M_PI xs sum = INFINITY := by
  induction xs with
  | nil => intro sum h; obtain ⟨c, hc, -⟩ := h; cases hc
  | cons x rest ih =>
    intro sum h
    by_cases hx : x < rastrigin_interval.start ∨ x > rastrigin_interval.«end»
    · rw [rastrigin_loop, if_pos hx]
    · rw [rastrigin_loop, if_neg hx]
      apply ih
      obtain ⟨c, hc, hout⟩ := h
      rcases List.mem_cons.mp hc with rfl | hc
      · exact absurd hout hx
      · exact ⟨c, hc, hout⟩

theorem schwefel_loop_outside (sin sqrt : ℚ → ℚ) (xs : List ℚ) :
    ∀ sum : ℚ, (∃ c ∈ xs, c < -500 ∨ 500 < c) →
      schwefel_loop sin sqrt xs sum = INFINITY := by
  induction xs with
  | nil => intro sum h; obtain ⟨c, hc, -⟩ := h; cases hc
  | cons x rest ih =>
    intro sum h
    by_cases hx : x < schwefel_interval.start ∨ x > schwefel_interval.«end»
    · rw [schwefel_loop, if_pos hx]
    · rw [schwefel_loop, if_neg hx]
      apply ih
      obtain ⟨c, hc, hout⟩ := h
      rcases List.mem_cons.mp hc with rfl | hc
      · exact absurd hout hx
      · exact ⟨c, hc, hout⟩

/-- The objectives outside their interval: `sphere_func`, `rastrigin_func` and
`schwefel_func` return `INFINITY` at every position with a component outside their interval, and
`rosenbrock_func` does so at every such position of dimension at least 2. -/
theorem objectives_infinite_outside (cos sin sqrt : ℚ → ℚ) (M_PI : ℚ) (particle : particle_t) :
    ((∃ c ∈ particle.x, c < sphere_interval.start ∨ sphere_interval.«end» < c) →
      sphere_func particle = INFINITY) ∧
    (2 ≤ particle.x.length →
      (∃ c ∈ particle.x, c < rosenbrock_interval.start ∨ rosenbrock_interval.«end» < c) →
      rosenbrock_func particle = some INFINITY) ∧
    ((∃ c ∈ particle.x, c < rastrigin_interval.start ∨ rastrigin_interval.«end» < c) →
      rastrigin_func cos M_PI particle = INFINITY) ∧
    ((∃ c ∈ particle.x, c < schwefel_interval.start ∨ schwefel_interval.«end» < c) →
      schwefel_func sin sqrt particle = INFINITY) := by
  refine ⟨fun h => sphere_loop_outside _ 0 h, fun hlen h => ?_, fun h => ?_,
    fun h => schwefel_loop_outside sin sqrt _ 0 h⟩
  · rw [rosenbrock_func, if_neg (by omega), rosenbrock_loop_outside _ 0 hlen h]
  · rw [rastrigin_func, rastrigin_loop_outside cos M_PI _ 0 h]
    rfl

/-- C8, the failing input: at the one-dimensional position `[100]`, outside the interval
`[-30, 30]`, the loop of `rosenbrock_func` runs no iteration and the function returns 0,
not `INFINITY`. -/
theorem rosenbrock_one_dimension_not_infinite :
    ((100 : ℚ) < rosenbrock_interval.start ∨ rosenbrock_interval.«end» < (100 : ℚ)) ∧
    rosenbrock_func ⟨INFINITY, [0], [100], [100], [0], [0]⟩ = some ((0 : ℚ) : Cost) ∧
    rosenbrock_func ⟨INFINITY, [0], [100], [100], [0], [0]⟩ ≠ some INFINITY := by
  decide!

/-- C9: at a position whose components all lie in `[-500, 500]` the sphere objective
returns the sum of the squares of the components; it returns 0 at `(0, 0)` and 5 at
`(1, 2)`. -/
theorem sphere_sum_of_squares (particle : particle_t)
    (h : ∀ c ∈ particle.x, -500 ≤ c ∧ c ≤ 500) :
    sphere_func particle = (((particle.x.map (fun c => c ^ 2)).sum : ℚ) : Cost) ∧
    sphere_func { particle with x := [0, 0] } = ((0 : ℚ) : Cost) ∧
    sphere_func { particle with x := [1, 2] } = ((5 : ℚ) : Cost) := by
  refine ⟨?_, ?_, ?_⟩
  · rw [sphere_func, sphere_loop_inside _ 0 h, zero_add]
  · rw [sphere_func, sphere_loop_inside _ 0 (by simp)]
    norm_num
  · rw [sphere_func, sphere_loop_inside _ 0 (by
      intro c hc
      simp only [List.mem_cons, List.mem_singleton, List.not_mem_nil, or_false] at hc
      rcases hc with rfl | rfl <;> norm_num)]
    norm_num

theorem sphere_sum_of_squares_witness :
    (∀ c ∈ ([3, -4] : Vec), -500 ≤ c ∧ c ≤ 500) ∧
    sphere_func ⟨INFINITY, [0, 0], [3, -4], [3, -4], [0, 0], [0, 0]⟩
      = (((([3, -4] : Vec).map (fun c => c ^ 2)).sum : ℚ) : Cost) :=
  ⟨by decide!, (sphere_sum_of_squares ⟨INFINITY, [0, 0], [3, -4], [3, -4], [0, 0], [0, 0]⟩
    (by decide!)).1⟩

/-! ## The particle loop and the iteration -/

theorem forLoop_succ_last {σ : Type} (body : Nat → σ → Option σ) :
    ∀ (n i : Nat) (s : σ),
      forLoop body (n + 1) i s = (forLoop body n i s).bind (body (i + n)) := by
  intro n
  induction n with
  | zero =>
    intro i s
    simp only [forLoop, Nat.add_zero, Option.some_bind]
    cases body i s <;> rfl
  | succ n ih =>
    intro i s
    show (body i s).bind (forLoop body (n + 1) (i + 1)) = _
    cases hb : body i s with
    | none => simp [forLoop, hb]
    | some s1 =>
      simp only [Option.some_bind]
      rw [ih (i + 1) s1]
      simp only [forLoop, hb, Option.some_bind]
      have e : i + 1 + n = i + (n + 1) := by omega
      rw [e]

theorem forLoop_update_spec (F : particle_t → Rng → Option (particle_t × Rng))
    (P : particle_t → Prop) (R : particle_t → particle_t → Prop)
    (hF : ∀ q rng, P q → ∃ q1 rng1, F q rng = some (q1, rng1) ∧ P q1 ∧ R q q1) :
    ∀ (n k : Nat) (ps : List particle_t) (rng : Rng), k + n ≤ ps.length →
      (∀ q ∈ ps, P q) →
      ∃ ps1 rng1,
        forLoop (fun i (s : List particle_t × Rng) =>
            s.1[i]?.bind fun particle =>
              (F particle s.2).map fun r => (s.1.set i r.1, r.2))
          n k (ps, rng) = some (ps1, rng1) ∧
        ps1.length = ps.length ∧ (∀ q ∈ ps1, P q) ∧
        (∀ (j : Nat) (q q1 : particle_t), k ≤ j → j < k + n → ps[j]? = some q →
          ps1[j]? = some q1 → R q q1) ∧
        (∀ j : Nat, j < k ∨ k + n ≤ j → ps1[j]? = ps[j]?) := by
  intro n
  induction n with
  | zero =>
    intro k ps rng _ hP
    refine ⟨ps, rng, rfl, rfl, hP, ?_, fun j _ => rfl⟩
    intro j q q1 h1 h2; omega
  | succ n ih =>
    intro k ps rng hk hP
    have hlt : k < ps.length := by omega
    have hget : ps[k]? = some ps[k] := List.getElem?_eq_getElem hlt
    obtain ⟨q1, rng1, hq1, hP1, hR1⟩ := hF ps[k] rng (hP _ (List.getElem_mem hlt))
    have hP2 : ∀ q ∈ ps.set k q1, P q := by
      intro q hq
      rcases List.mem_or_eq_of_mem_set hq with h | h
      · exact hP q h
      · exact h ▸ hP1
    obtain ⟨ps2, rng2, hrun, hlen, hP3, hin, hout⟩ := ih (k + 1) (ps.set k q1) rng1
      (by simp only [List.length_set]; omega) hP2
    refine ⟨ps2, rng2, ?_, by simpa using hlen, hP3, ?_, ?_⟩
    · simp only [forLoop, hget, hq1, Option.map_some', Option.some_bind]
      exact hrun
    · intro j q q2 h1 h2 hq hq2
      by_cases hj : j = k
      · subst hj
        rw [hout j (Or.inl (by omega)), List.getElem?_set_eq_of_lt _ hlt] at hq2
        rw [hget] at hq
        cases hq; cases hq2
        exact hR1
      · refine hin j q q2 (by omega) (by omega) ?_ hq2
        rw [List.getElem?_set_ne (by omega)]
        exact hq
    · intro j hj
      rw [hout j (by omega), List.getElem?_set_ne (by omega)]

theorem zipWith_attraction_zero (g l : Vec) (d : Nat) (hg : g.length = d) (hl : l.length = d) :
    List.zipWith (fun x y => x * y) (List.zipWith (fun x y => x - y) g g) l
      = List.replicate d 0 := by
  apply List.ext_getElem?
  intro j
  by_cases hj : j < d
  · simp [List.getElem?_zipWith, List.getElem?_replicate, hj, getElem?_eq_getD_of_lt, hg, hl]
  · rw [List.getElem?_eq_none (by simp; omega), List.getElem?_eq_none (by simp; omega)]

theorem zipWith_add_zero (g : Vec) (d : Nat) (hg : g.length = d) :
    List.zipWith (fun x y => x + y) g (List.replicate d 0) = g := by
  apply List.ext_getElem?
  intro j
  by_cases hj : j < d
  · simp [List.getElem?_zipWith, List.getElem?_replicate, hj, getElem?_eq_getD_of_lt, hg]
  · rw [List.getElem?_eq_none (by simp; omega), List.getElem?_eq_none (by omega)]

theorem step_spec (a b_loc b_glob : ℚ) (particle : particle_t) (p_glob : Vec) (rng : Rng)
    (d : Nat) (hs : sized d particle) (hpg : p_glob.length = d) :
    ∃ q rng1, step a b_loc b_glob particle p_glob rng = some (q, rng1) ∧ sized d q ∧
      q.p = particle.p ∧ q.p_val = particle.p_val ∧
      (particle.v = List.replicate d 0 → particle.x = p_glob → particle.p = p_glob →
        q.v = List.replicate d 0 ∧ q.x = p_glob) := by
  obtain ⟨hv, hx, hp, hl, hg⟩ := hs
  refine ⟨_, _, step_eq a b_loc b_glob particle p_glob rng d hv hx hp hl hg hpg, ?_, rfl, rfl,
    ?_⟩
  · simp [sized, hv, hx, hp, hpg]
  · intro h0 hxg hpgl
    have hv0 : List.zipWith (fun x y => x + y)
        (List.zipWith (fun x y => x + y) (particle.v.map (fun x => x * a))
          (List.zipWith (fun x y => x * y)
            (List.zipWith (fun x y => x - y) particle.p particle.x)
            (((List.range d).map rng).map (fun x => x * b_loc))))
        (List.zipWith (fun x y => x * y)
          (List.zipWith (fun x y => x - y) p_glob particle.x)
          (((List.range d).map (fun m => rng (m + d))).map (fun x => x * b_glob)))
        = List.replicate d 0 := by
      rw [hxg, hpgl, zipWith_attraction_zero p_glob _ d hpg (by simp),
        zipWith_attraction_zero p_glob _ d hpg (by simp), h0]
      have hz : (List.replicate d (0 : ℚ)).map (fun x => x * a) = List.replicate d 0 := by
        simp
      rw [hz, zipWith_add_zero _ d (by simp), zipWith_add_zero _ d (by simp)]
    constructor
    · exact hv0
    · show List.zipWith (fun x y => x + y) particle.x _ = p_glob
      rw [hv0, hxg, zipWith_add_zero _ d hpg]

theorem update_particle_spec (cfg : Params) (p_glob : Vec) (particle : particle_t) (rng : Rng)
    (d : Nat) (hs : sized d particle) (hpg : p_glob.length = d) :
    ∃ q rng1, update_particle cfg p_glob particle rng = some (q, rng1) ∧ sized d q ∧
      updated cfg p_glob particle q := by
  obtain ⟨q1, rng1, hstep, hs1, -, -, -⟩ :=
    step_spec cfg.a cfg.b_loc cfg.b_glob particle p_glob rng d hs hpg
  have hev := evaluate_particle_eq q1 cfg.func (hs1.2.1.trans hs1.2.2.1.symm)
  have hrun : update_particle cfg p_glob particle rng = some
      (if q1.p_val = INFINITY ∨ cfg.func q1 < q1.p_val
        then { q1 with p_val := cfg.func q1, p := q1.x } else q1, rng1) := by
    rw [update_particle, hstep, Option.some_bind, hev]
    rfl
  refine ⟨_, rng1, hrun, ?_, rng, rng1, hrun⟩
  obtain ⟨h1, h2, h3, h4, h5⟩ := hs1
  split
  · exact ⟨h1, h2, h2, h4, h5⟩
  · exact ⟨h1, h2, h3, h4, h5⟩

theorem updated_props (cfg : Params) (f : Vec → Cost) (hfunc : cfg.func = fun q => f q.x)
    (p_glob : Vec) (q q2 : particle_t) (d : Nat) (hs : sized d q) (hpg : p_glob.length = d)
    (h : updated cfg p_glob q q2) :
    q2.p_val ≤ q.p_val ∧ q2.p_val ≤ f q2.x ∧
    (q2.p = q.p ∧ q2.p_val = q.p_val ∨ q2.p = q2.x ∧ q2.p_val = f q2.x) ∧
    (q.p_val = INFINITY → q2.p = q2.x) ∧
    (q.v = List.replicate d 0 → q.x = p_glob → q.p = p_glob →
      q2.v = List.replicate d 0 ∧ q2.x = p_glob) := by
  obtain ⟨rng, rng2, hrun⟩ := h
  obtain ⟨q1, rng1, hstep, hs1, hp1, hval1, hfix⟩ :=
    step_spec cfg.a cfg.b_loc cfg.b_glob q p_glob rng d hs hpg
  have hev := evaluate_particle_eq q1 cfg.func (hs1.2.1.trans hs1.2.2.1.symm)
  rw [update_particle, hstep, Option.some_bind, hev] at hrun
  simp only [Option.map_some', Option.some.injEq, Prod.mk.injEq] at hrun
  obtain ⟨hq2, -⟩ := hrun
  have hfq : cfg.func q1 = f q1.x := by rw [hfunc]
  rw [hfq, hval1] at hq2
  by_cases hc : q.p_val = INFINITY ∨ f q1.x < q.p_val
  · rw [if_pos hc] at hq2
    subst hq2
    refine ⟨?_, le_refl _, Or.inr ⟨rfl, rfl⟩, fun _ => rfl, hfix⟩
    rcases hc with hc | hc
    · rw [hc]; exact le_top
    · exact le_of_lt hc
  · rw [if_neg hc] at hq2
    subst hq2
    simp only [not_or, not_lt] at hc
    refine ⟨le_of_eq hval1, ?_, Or.inl ⟨hp1, hval1⟩, fun h => absurd h hc.1, hfix⟩
    rw [hval1]
    exact hc.2

theorem particle_loop_spec (cfg : Params) (d tid : Nat) (st : State)
    (hst : sized_state cfg d st) (htid : tid < cfg.threads) :
    ∃ st1, particle_loop cfg tid st = some st1 ∧ st1.p_glob = st.p_glob ∧
      st1.p_glob_val = st.p_glob_val ∧ sized_state cfg d st1 ∧
      (∀ (j : Nat) (q q1 : particle_t), tid * (cfg.num_particles / cfg.threads) ≤ j →
        j < tid * (cfg.num_particles / cfg.threads) + cfg.num_particles / cfg.threads →
        st.particles[j]? = some q → st1.particles[j]? = some q1 →
        updated cfg st.p_glob q q1) ∧
      (∀ j : Nat, j < tid * (cfg.num_particles / cfg.threads) ∨
        tid * (cfg.num_particles / cfg.threads) + cfg.num_particles / cfg.threads ≤ j →
        st1.particles[j]? = st.particles[j]?) := by
  obtain ⟨hT, hN, hlen, hpg, hsz⟩ := hst
  have hbound : tid * (cfg.num_particles / cfg.threads) + cfg.num_particles / cfg.threads
      ≤ st.particles.length := by
    have h1 : (tid + 1) * (cfg.num_particles / cfg.threads)
        ≤ cfg.threads * (cfg.num_particles / cfg.threads) :=
      Nat.mul_le_mul_right _ htid
    have h2 : cfg.threads * (cfg.num_particles / cfg.threads) ≤ cfg.num_particles :=
      Nat.mul_div_le _ _
    rw [hlen]
    calc tid * (cfg.num_particles / cfg.threads) + cfg.num_particles / cfg.threads
        = (tid + 1) * (cfg.num_particles / cfg.threads) := by ring
      _ ≤ cfg.num_particles := le_trans h1 h2
  obtain ⟨ps1, rng1, hrun, hlen1, hsz1, hin, hout⟩ :=
    forLoop_update_spec (update_particle cfg st.p_glob) (sized d) (updated cfg st.p_glob)
      (fun q rng hq => update_particle_spec cfg st.p_glob q rng d hq hpg)
      (cfg.num_particles / cfg.threads) (tid * (cfg.num_particles / cfg.threads))
      st.particles (st.random_data tid) hbound hsz
  refine ⟨{ st with particles := ps1, random_data := Function.update st.random_data tid rng1 },
    ?_, rfl, rfl, ⟨hT, hN, hlen1.trans hlen, hpg, hsz1⟩, hin, hout⟩
  rw [particle_loop, if_neg (by omega)]
  simp only
  rw [hrun]
  rfl

theorem workers_loop_spec (cfg : Params) (d : Nat) (st : State) (hst : sized_state cfg d st) :
    ∀ t : Nat, t ≤ cfg.threads →
      ∃ st1, forLoop (fun tid s => particle_loop cfg tid s) t 0 st = some st1 ∧
        st1.p_glob = st.p_glob ∧ st1.p_glob_val = st.p_glob_val ∧ sized_state cfg d st1 ∧
        (∀ (j : Nat) (q q1 : particle_t), j < t * (cfg.num_particles / cfg.threads) →
          st.particles[j]? = some q → st1.particles[j]? = some q1 →
          updated cfg st.p_glob q q1) ∧
        (∀ j : Nat, t * (cfg.num_particles / cfg.threads) ≤ j →
          st1.particles[j]? = st.particles[j]?) := by
  intro t
  have hloop := particle_loop_spec cfg d
  generalize cfg.num_particles / cfg.threads = ppt at hloop ⊢
  induction t with
  | zero =>
    intro _
    refine ⟨st, rfl, rfl, rfl, hst, ?_, fun j _ => rfl⟩
    intro j q q1 hj
    simp at hj
  | succ t ih =>
    intro ht
    obtain ⟨st1, hrun1, hg1, hv1, hs1, hin1, hout1⟩ := ih (by omega)
    obtain ⟨st2, hrun2, hg2, hv2, hs2, hin2, hout2⟩ := hloop t st1 hs1 (by omega)
    refine ⟨st2, ?_, hg2.trans hg1, hv2.trans hv1, hs2, ?_, ?_⟩
    · rw [forLoop_succ_last, hrun1, Option.some_bind, Nat.zero_add]
      exact hrun2
    · intro j q q2 hj hq hq2
      have hsplit : (t + 1) * ppt = t * ppt + ppt := by ring
      by_cases hlt : j < t * ppt
      · rw [hout2 j (Or.inl hlt)] at hq2
        exact hin1 j q q2 hlt hq hq2
      · have h1 := hin2 j q q2 (by omega) (by omega) (by rw [hout1 j (by omega)]; exact hq) hq2
        rw [hg1] at h1
        exact h1
    · intro j hj
      have hsplit : (t + 1) * ppt = t * ppt + ppt := by ring
      rw [hout2 j (Or.inr (by omega)), hout1 j (by omega)]

theorem reduce_spec (cfg : Params) (d : Nat) (st : State) (hst : sized_state cfg d st) :
    ∃ (st1 : State) (m : Nat) (w : particle_t), reduce cfg st = some st1 ∧
      st1.particles = st.particles ∧ sized_state cfg d st1 ∧ st.particles[m]? = some w ∧
      st1.p_glob = w.p ∧ st1.p_glob_val = w.p_val ∧
      (∀ (j : Nat) (r : particle_t), st.particles[j]? = some r → w.p_val ≤ r.p_val) ∧
      (∀ (j : Nat) (r : particle_t), j < m → st.particles[j]? = some r →
        w.p_val < r.p_val) := by
  obtain ⟨hT, hN, hlen, hpg, hsz⟩ := hst
  have hne : st.particles ≠ [] := by
    intro h
    rw [h] at hlen
    simp at hlen
    omega
  obtain ⟨m, w, hw, hmin, hle, hlt⟩ := find_min_spec st.particles hne
  have hwp : w.p.length = st.p_glob.length := by
    rw [hpg]
    exact (hsz w (List.getElem?_mem hw)).2.2.1
  refine ⟨{ st with p_glob := w.p, p_glob_val := w.p_val }, m, w, ?_, rfl,
    ⟨hT, hN, hlen, hwp.trans hpg, hsz⟩, hw, rfl, rfl, hle, hlt⟩
  rw [reduce, ← hlen, hmin, Option.some_bind, copy_vec, if_pos hwp]
  rfl

theorem iteration_spec (cfg : Params) (d : Nat) (st : State) (hst : sized_state cfg d st) :
    ∃ (st1 : State) (m : Nat) (w : particle_t), iteration cfg st = some st1 ∧
      sized_state cfg d st1 ∧
      (∀ (j : Nat) (q q1 : particle_t),
        j < cfg.threads * (cfg.num_particles / cfg.threads) →
        st.particles[j]? = some q → st1.particles[j]? = some q1 →
        updated cfg st.p_glob q q1) ∧
      (∀ j : Nat, cfg.threads * (cfg.num_particles / cfg.threads) ≤ j →
        st1.particles[j]? = st.particles[j]?) ∧
      st1.particles[m]? = some w ∧ st1.p_glob = w.p ∧ st1.p_glob_val = w.p_val ∧
      (∀ (j : Nat) (r : particle_t), st1.particles[j]? = some r → w.p_val ≤ r.p_val) ∧
      (∀ (j : Nat) (r : particle_t), j < m → st1.particles[j]? = some r →
        w.p_val < r.p_val) := by
  obtain ⟨st1, hrun1, hg1, -, hs1, hin1, hout1⟩ :=
    workers_loop_spec cfg d st hst cfg.threads (le_refl _)
  obtain ⟨st2, m, w, hrun2, hps, hs2, hw, hg2, hv2, hle, hlt⟩ := reduce_spec cfg d st1 hs1
  refine ⟨st2, m, w, ?_, hs2, ?_, ?_, ?_, hg2, hv2, ?_, ?_⟩
  · rw [iteration, hrun1, Option.some_bind]
    exact hrun2
  · rw [hps]; exact hin1
  · rw [hps]; exact hout1
  · rw [hps]; exact hw
  · rw [hps]; exact hle
  · rw [hps]; exact hlt

/-! ## Runs -/

theorem iterations_loop_succ (cfg : Params) (n : Nat) (st : State) :
    iterations_loop cfg (n + 1) st = (iterations_loop cfg n st).bind (iteration cfg) := by
  rw [iterations_loop, forLoop_succ_last]
  rfl

theorem iterations_loop_sized (cfg : Params) (d : Nat) (st0 : State)
    (hst : sized_state cfg d st0) :
    ∀ n : Nat, ∃ st, iterations_loop cfg n st0 = some st ∧ sized_state cfg d st := by
  intro n
  induction n with
  | zero => exact ⟨st0, rfl, hst⟩
  | succ n ih =>
    obtain ⟨st, hrun, hs⟩ := ih
    obtain ⟨st1, -, -, hit, hs1, -⟩ := iteration_spec cfg d st hs
    exact ⟨st1, by rw [iterations_loop_succ, hrun, Option.some_bind, hit], hs1⟩

theorem getElem?_some_of_length_eq {α : Type} (l1 l2 : List α) (h : l1.length = l2.length)
    (i : Nat) (a : α) (ha : l1[i]? = some a) : ∃ b, l2[i]? = some b := by
  have hi : i < l1.length := by
    by_contra hcon
    rw [List.getElem?_eq_none (by omega)] at ha
    cases ha
  exact ⟨l2[i], List.getElem?_eq_getElem (by omega)⟩

theorem iteration_evaluates_all (cfg : Params) (f : Vec → Cost) (d : Nat) (st : State)
    (hfunc : cfg.func = fun q => f q.x) (hst : sized_state cfg d st)
    (hdiv : cfg.num_particles % cfg.threads = 0) :
    ∃ st1, iteration cfg st = some st1 ∧ sized_state cfg d st1 ∧
      ∀ (i : Nat) (q q1 : particle_t), st.particles[i]? = some q →
        st1.particles[i]? = some q1 → q1.p_val ≤ q.p_val ∧ q1.p_val ≤ f q1.x := by
  obtain ⟨st1, -, -, hit, hs1, hin, -⟩ := iteration_spec cfg d st hst
  refine ⟨st1, hit, hs1, ?_⟩
  intro i q q1 hq hq1
  have hi : i < cfg.num_particles := by
    by_contra hcon
    rw [List.getElem?_eq_none (by rw [hst.2.2.1]; omega)] at hq
    cases hq
  have hcover : cfg.threads * (cfg.num_particles / cfg.threads) = cfg.num_particles :=
    Nat.mul_div_cancel' (Nat.dvd_of_mod_eq_zero hdiv)
  have hup := hin i q q1 (by rw [hcover]; exact hi) hq hq1
  have hprops := updated_props cfg f hfunc st.p_glob q q1 d
    (hst.2.2.2.2 q (List.getElem?_mem hq)) hst.2.2.2.1 hup
  exact ⟨hprops.1, hprops.2.1⟩

/-- C6, refuted as stated: in the run of 1 worker and 2 particles of dimension 2 on the
sphere objective with `a = 1/2`, `b_loc = b_glob = 2`, the second particle is created
at `(0, 0)`, where the cost is 0, and after the first iteration its `p_val` is 45000. -/
theorem initial_position_not_evaluated :
    (main_init ⟨1, 2, 1, 1 / 2, 2, 2, sphere_func⟩ 2 sphere_interval
        (fun n => if n = 2 ∨ n = 3 then 6 / 10 else 1 / 2) (fun _ _ => 3 / 4)).map
      (fun st => st.particles.map (fun q => (q.x, sphere_func q)))
      = some [([100, 100], ((20000 : ℚ) : Cost)), ([0, 0], ((0 : ℚ) : Cost))] ∧
    (main_run ⟨1, 2, 1, 1 / 2, 2, 2, sphere_func⟩ 2 sphere_interval
        (fun n => if n = 2 ∨ n = 3 then 6 / 10 else 1 / 2) (fun _ _ => 3 / 4)).map
      (fun st => st.particles.map (fun q => (q.x, q.p_val)))
      = some [([100, 100], ((20000 : ℚ) : Cost)), ([150, 150], ((45000 : ℚ) : Cost))] ∧
    ¬ (((45000 : ℚ) : Cost) ≤ ((0 : ℚ) : Cost)) := by
  decide!

/-- C6, amended: in a run whose particle count is a multiple of the worker count, from any
state whose vectors all have dimension `d`, for `1 ≤ j ≤ k` the iterations `j` and `k`
complete and the `p_val` of every particle after iteration `k` is at most the cost of
the position the particle has after iteration `j`.  The position at creation, which
the run does not evaluate, is not covered. -/
theorem p_val_bounds_evaluated_positions (cfg : Params) (f : Vec → Cost) (d : Nat)
    (st0 : State) (hfunc : cfg.func = fun q => f q.x) (hst : sized_state cfg d st0)
    (hdiv : cfg.num_particles % cfg.threads = 0) (j k : Nat) (hj : 1 ≤ j) (hjk : j ≤ k) :
    ∃ sj sk, iterations_loop cfg j st0 = some sj ∧ iterations_loop cfg k st0 = some sk ∧
      sj.particles.length = cfg.num_particles ∧ sk.particles.length = cfg.num_particles ∧
      ∀ (i : Nat) (qj qk : particle_t), sj.particles[i]? = some qj →
        sk.particles[i]? = some qk → qk.p_val ≤ f qj.x := by
  obtain ⟨e, rfl⟩ : ∃ e, k = j + e := ⟨k - j, by omega⟩
  obtain ⟨j0, rfl⟩ : ∃ j0, j = j0 + 1 := ⟨j - 1, by omega⟩
  clear hjk
  obtain ⟨s0, hrun0, hs0⟩ := iterations_loop_sized cfg d st0 hst j0
  obtain ⟨sj, hit, hsj, hprop⟩ := iteration_evaluates_all cfg f d s0 hfunc hs0 hdiv
  have hrunj : iterations_loop cfg (j0 + 1) st0 = some sj := by
    rw [iterations_loop_succ, hrun0, Option.some_bind, hit]
  induction e with
  | zero =>
    refine ⟨sj, sj, hrunj, hrunj, hsj.2.2.1, hsj.2.2.1, ?_⟩
    intro i qj qk hqj hqk
    rw [hqj] at hqk
    cases hqk
    obtain ⟨q0, hq0⟩ := getElem?_some_of_length_eq sj.particles s0.particles
      (hsj.2.2.1.trans hs0.2.2.1.symm) i qj hqj
    exact (hprop i q0 qj hq0 hqj).2
  | succ e ih =>
    obtain ⟨sj1, sk, hr1, hrk, hl1, hlk, hall⟩ := ih
    rw [hrunj] at hr1
    cases hr1
    obtain ⟨sk0, hrk0, hsk0⟩ := iterations_loop_sized cfg d st0 hst (j0 + 1 + e)
    rw [hrk] at hrk0
    cases hrk0
    obtain ⟨sk1, hit1, hsk1, hprop1⟩ := iteration_evaluates_all cfg f d sk hfunc hsk0 hdiv
    refine ⟨sj, sk1, hrunj, ?_, hl1, hsk1.2.2.1, ?_⟩
    · rw [← Nat.add_assoc, iterations_loop_succ, hrk, Option.some_bind, hit1]
    · intro i qj qk1 hqj hqk1
      obtain ⟨qk, hqk⟩ := getElem?_some_of_length_eq sk1.particles sk.particles
        (hsk1.2.2.1.trans hlk.symm) i qk1 hqk1
      exact le_trans (hprop1 i qk qk1 hqk hqk1).1 (hall i qj qk hqj hqk)

theorem p_val_bounds_evaluated_positions_witness :
    sized_state ⟨1, 2, 2, 1 / 2, 2, 2, sphere_func⟩ 2
      ⟨[⟨INFINITY, [0, 0], [100, 100], [100, 100], [0, 0], [0, 0]⟩,
        ⟨INFINITY, [0, 0], [0, 0], [0, 0], [0, 0], [0, 0]⟩], [100, 100], INFINITY,
        fun _ _ => 3 / 4⟩ ∧
    (2 % 1 = 0) ∧
    ∃ sj sk,
      iterations_loop ⟨1, 2, 2, 1 / 2, 2, 2, sphere_func⟩ 1
        ⟨[⟨INFINITY, [0, 0], [100, 100], [100, 100], [0, 0], [0, 0]⟩,
          ⟨INFINITY, [0, 0], [0, 0], [0, 0], [0, 0], [0, 0]⟩], [100, 100], INFINITY,
          fun _ _ => 3 / 4⟩ = some sj ∧
      iterations_loop ⟨1, 2, 2, 1 / 2, 2, 2, sphere_func⟩ 2
        ⟨[⟨INFINITY, [0, 0], [100, 100], [100, 100], [0, 0], [0, 0]⟩,
          ⟨INFINITY, [0, 0], [0, 0], [0, 0], [0, 0], [0, 0]⟩], [100, 100], INFINITY,
          fun _ _ => 3 / 4⟩ = some sk ∧
      sj.particles.length = 2 ∧ sk.particles.length = 2 ∧
      ∀ (i : Nat) (qj qk : particle_t), sj.particles[i]? = some qj →
        sk.particles[i]? = some qk → qk.p_val ≤ sphere_loop qj.x 0 :=
  have hst : sized_state ⟨1, 2, 2, 1 / 2, 2, 2, sphere_func⟩ 2
      ⟨[⟨INFINITY, [0, 0], [100, 100], [100, 100], [0, 0], [0, 0]⟩,
        ⟨INFINITY, [0, 0], [0, 0], [0, 0], [0, 0], [0, 0]⟩], [100, 100], INFINITY,
        fun _ _ => 3 / 4⟩ :=
    ⟨by decide, by decide, rfl, rfl, by decide⟩
  ⟨hst, rfl, p_val_bounds_evaluated_positions ⟨1, 2, 2, 1 / 2, 2, 2, sphere_func⟩
    (fun x => sphere_loop x 0) 2 _ rfl hst rfl 1 2 (le_refl 1) (by decide)⟩

theorem created_all_top_first (ps : List particle_t) (m : Nat) (w : particle_t)
    (hw : ps[m]? = some w) (htop : ∀ q ∈ ps, q.p_val = INFINITY)
    (hlt : ∀ (j : Nat) (r : particle_t), j < m → ps[j]? = some r → w.p_val < r.p_val) :
    m = 0 := by
  by_contra hm
  have hlen : m < ps.length := by
    by_contra hcon
    rw [List.getElem?_eq_none (by omega)] at hw
    cases hw
  have h0 : ps[0]? = some ps[0] := List.getElem?_eq_getElem (by omega)
  have := hlt 0 _ (by omega) h0
  rw [htop _ (List.getElem?_mem h0), htop _ (List.getElem?_mem hw)] at this
  exact absurd this (lt_irrefl _)

theorem sphere_objective_outside (y : Vec) (h : ¬ in_interval sphere_interval y) :
    sphere_loop y 0 = INFINITY := by
  apply sphere_loop_outside
  simp only [in_interval, sphere_interval, not_forall, not_and_or, not_le] at h
  obtain ⟨c, hc, hout⟩ := h
  exact ⟨c, hc, hout⟩

theorem run_invariant_iteration (cfg : Params) (f : Vec → Cost) (d : Nat)
    (interval : interval_t) (st : State) (hfunc : cfg.func = fun q => f q.x)
    (hf : ∀ y : Vec, ¬ in_interval interval y → f y = INFINITY)
    (hinv : run_invariant cfg d interval st) :
    ∃ st1, iteration cfg st = some st1 ∧ run_invariant cfg d interval st1 := by
  obtain ⟨hst, hgin, hpin, hrest⟩ := hinv
  obtain ⟨st1, m, w, hit, hs1, hin, hout, hw, hg, -, hle, hlt⟩ := iteration_spec cfg d st hst
  have hlen : st1.particles.length = st.particles.length := hs1.2.2.1.trans hst.2.2.1.symm
  -- every particle is unchanged or updated
  have hstep : ∀ (i : Nat) (q q1 : particle_t), st.particles[i]? = some q →
      st1.particles[i]? = some q1 → q1 = q ∨ updated cfg st.p_glob q q1 := by
    intro i q q1 hq hq1
    by_cases hi : i < cfg.threads * (cfg.num_particles / cfg.threads)
    · exact Or.inr (hin i q q1 hi hq hq1)
    · rw [hout i (by omega), hq] at hq1
      cases hq1
      exact Or.inl rfl
  have hmono : ∀ (i : Nat) (q q1 : particle_t), st.particles[i]? = some q →
      st1.particles[i]? = some q1 → q1.p_val ≤ q.p_val := by
    intro i q q1 hq hq1
    rcases hstep i q q1 hq hq1 with h | h
    · rw [h]
    · exact (updated_props cfg f hfunc st.p_glob q q1 d
        (hst.2.2.2.2 q (List.getElem?_mem hq)) hst.2.2.2.1 h).1
  have hpin1 : ∀ q1 ∈ st1.particles, q1.p_val ≠ INFINITY → in_interval interval q1.p := by
    intro q1 hq1 hne
    obtain ⟨i, hi⟩ := List.getElem?_of_mem hq1
    obtain ⟨q, hq⟩ := getElem?_some_of_length_eq st1.particles st.particles hlen i q1 hi
    rcases hstep i q q1 hq hi with h | h
    · rw [h] at hne ⊢
      exact hpin q (List.getElem?_mem hq) hne
    · obtain ⟨-, -, hcase, -, -⟩ := updated_props cfg f hfunc st.p_glob q q1 d
        (hst.2.2.2.2 q (List.getElem?_mem hq)) hst.2.2.2.1 h
      rcases hcase with ⟨hp, hval⟩ | ⟨hp, hval⟩
      · rw [hp]
        exact hpin q (List.getElem?_mem hq) (by rw [← hval]; exact hne)
      · rw [hp]
        by_contra hout1
        exact hne (hval.trans (hf _ hout1))
  have hrest1 : (∀ q ∈ st1.particles, q.p_val = INFINITY) →
      st1.p_glob = st.p_glob ∧ ∃ q0, st1.particles[0]? = some q0 ∧
        q0.v = List.replicate d 0 ∧ q0.x = st.p_glob ∧ q0.p = st.p_glob := by
    intro hall1
    have hall : ∀ q ∈ st.particles, q.p_val = INFINITY := by
      intro q hq
      obtain ⟨i, hi⟩ := List.getElem?_of_mem hq
      obtain ⟨q1, hq1⟩ := getElem?_some_of_length_eq st.particles st1.particles hlen.symm i q hi
      have h1 := hmono i q q1 hi hq1
      rw [hall1 q1 (List.getElem?_mem hq1)] at h1
      exact top_le_iff.mp h1
    obtain ⟨q0, hq0, hv0, hx0, hp0⟩ := hrest hall
    obtain ⟨q1, hq1⟩ := getElem?_some_of_length_eq st.particles st1.particles hlen.symm 0 q0 hq0
    have hq1props : q1.v = List.replicate d 0 ∧ q1.x = st.p_glob ∧ q1.p = st.p_glob := by
      rcases hstep 0 q0 q1 hq0 hq1 with h | h
      · rw [h]
        exact ⟨hv0, hx0, hp0⟩
      · obtain ⟨-, -, -, hguard, hfix⟩ := updated_props cfg f hfunc st.p_glob q0 q1 d
          (hst.2.2.2.2 q0 (List.getElem?_mem hq0)) hst.2.2.2.1 h
        obtain ⟨h1, h2⟩ := hfix hv0 hx0 hp0
        exact ⟨h1, h2, (hguard (hall q0 (List.getElem?_mem hq0))).trans h2⟩
    have hm : m = 0 := created_all_top_first st1.particles m w hw hall1 hlt
    subst hm
    rw [hq1] at hw
    have hwq : q1 = w := Option.some.inj hw
    rw [← hwq] at hg
    exact ⟨hg.trans hq1props.2.2, q1, hq1, hq1props⟩
  refine ⟨st1, hit, hs1, ?_, hpin1, ?_⟩
  · by_cases hwtop : w.p_val = INFINITY
    · have hall1 : ∀ q ∈ st1.particles, q.p_val = INFINITY := by
        intro q hq
        obtain ⟨i, hi⟩ := List.getElem?_of_mem hq
        have h1 := hle i q hi
        rw [hwtop] at h1
        exact top_le_iff.mp h1
      rw [(hrest1 hall1).1]
      exact hgin
    · rw [hg]
      exact hpin1 w (List.getElem?_mem hw) hwtop
  · intro hall1
    obtain ⟨hgeq, q0, hq0, hv0, hx0, hp0⟩ := hrest1 hall1
    exact ⟨q0, hq0, hv0, hx0.trans hgeq.symm, hp0.trans hgeq.symm⟩

theorem run_invariant_initial (cfg : Params) (d : Nat) (interval : interval_t) (st0 : State)
    (hT : 0 < cfg.threads) (hN : 0 < cfg.num_particles)
    (hlen : st0.particles.length = cfg.num_particles)
    (hcr : ∀ q ∈ st0.particles, created d interval q)
    (hmin : find_min st0.particles cfg.num_particles = some (st0.p_glob, st0.p_glob_val)) :
    run_invariant cfg d interval st0 := by
  have hne : st0.particles ≠ [] := by
    intro h
    rw [h] at hlen
    simp at hlen
    omega
  obtain ⟨m, w, hw, hmin1, -, hlt⟩ := find_min_spec st0.particles hne
  rw [hlen, hmin] at hmin1
  simp only [Option.some.injEq, Prod.mk.injEq] at hmin1
  obtain ⟨hg, -⟩ := hmin1
  have hwc := hcr w (List.getElem?_mem hw)
  have hm : m = 0 :=
    created_all_top_first st0.particles m w hw (fun q hq => (hcr q hq).1) hlt
  subst hm
  refine ⟨⟨hT, hN, hlen, ?_, fun q hq => (hcr q hq).2.2.2.1⟩, ?_, ?_, ?_⟩
  · rw [hg]
    exact hwc.2.2.2.1.2.2.1
  · rw [hg, hwc.2.2.1]
    exact hwc.2.2.2.2
  · intro q hq hne1
    exact absurd (hcr q hq).1 hne1
  · intro _
    exact ⟨w, hw, hwc.2.1, by rw [hg, hwc.2.2.1], hg.symm⟩

/-- C7, refuted as stated: in the run of 1 worker and 2 particles of dimension 2 on the
sphere objective (interval `[-500, 500]`) with `a = 1/2`, `b_loc = b_glob = 2`, both
particles are created inside the interval, and the first iteration sets the personal
best position of the second particle to `(600, 600)`, outside the interval. -/
theorem personal_best_leaves_interval :
    (main_init ⟨1, 2, 1, 1 / 2, 2, 2, sphere_func⟩ 2 sphere_interval
        (fun n => if n = 2 ∨ n = 3 then 9 / 10 else 1 / 2) (fun _ _ => 3 / 4)).map
      (fun st => st.particles.map (fun q => (q.x, q.p, q.p_val)))
      = some [([400, 400], [400, 400], INFINITY), ([0, 0], [0, 0], INFINITY)] ∧
    (main_run ⟨1, 2, 1, 1 / 2, 2, 2, sphere_func⟩ 2 sphere_interval
        (fun n => if n = 2 ∨ n = 3 then 9 / 10 else 1 / 2) (fun _ _ => 3 / 4)).map
      (fun st => st.particles.map (fun q => (q.x, q.p, q.p_val)))
      = some [([400, 400], [400, 400], ((320000 : ℚ) : Cost)),
          ([600, 600], [600, 600], INFINITY)] ∧
    in_interval sphere_interval [400, 400] ∧ in_interval sphere_interval [0, 0] ∧
    ¬ in_interval sphere_interval [600, 600] := by
  decide!

/-- C7, amended: for an objective that returns `INFINITY` outside the interval, in a run
from particles as `new_particle` creates them inside the interval and the global best as
`main` sets it, every iteration completes, the global best position lies in the
interval after every iteration, and so does the personal best position of every
particle whose `p_val` is not `INFINITY`. -/
theorem best_positions_inside (cfg : Params) (f : Vec → Cost) (d : Nat)
    (interval : interval_t) (st0 : State) (n : Nat)
    (hfunc : cfg.func = fun q => f q.x)
    (hf : ∀ y : Vec, ¬ in_interval interval y → f y = INFINITY)
    (hT : 0 < cfg.threads) (hN : 0 < cfg.num_particles)
    (hlen : st0.particles.length = cfg.num_particles)
    (hcr : ∀ q ∈ st0.particles, created d interval q)
    (hmin : find_min st0.particles cfg.num_particles = some (st0.p_glob, st0.p_glob_val)) :
    ∃ st, iterations_loop cfg n st0 = some st ∧ in_interval interval st.p_glob ∧
      ∀ q ∈ st.particles, q.p_val ≠ INFINITY → in_interval interval q.p := by
  have hall : ∃ st, iterations_loop cfg n st0 = some st ∧ run_invariant cfg d interval st := by
    induction n with
    | zero => exact ⟨st0, rfl, run_invariant_initial cfg d interval st0 hT hN hlen hcr hmin⟩
    | succ n ih =>
      obtain ⟨st, hrun, hinv⟩ := ih
      obtain ⟨st1, hit, hinv1⟩ := run_invariant_iteration cfg f d interval st hfunc hf hinv
      exact ⟨st1, by rw [iterations_loop_succ, hrun, Option.some_bind, hit], hinv1⟩
  obtain ⟨st, hrun, -, hg, hp, -⟩ := hall
  exact ⟨st, hrun, hg, hp⟩

theorem best_positions_inside_witness :
    (∀ y : Vec, ¬ in_interval sphere_interval y → sphere_loop y 0 = INFINITY) ∧
    (∀ q ∈ [(⟨INFINITY, [0, 0], [400, 400], [400, 400], [0, 0], [0, 0]⟩ : particle_t),
        ⟨INFINITY, [0, 0], [0, 0], [0, 0], [0, 0], [0, 0]⟩], created 2 sphere_interval q) ∧
    ∃ st, iterations_loop ⟨1, 2, 1, 1 / 2, 2, 2, sphere_func⟩ 1
        ⟨[⟨INFINITY, [0, 0], [400, 400], [400, 400], [0, 0], [0, 0]⟩,
          ⟨INFINITY, [0, 0], [0, 0], [0, 0], [0, 0], [0, 0]⟩], [400, 400], INFINITY,
          fun _ _ => 3 / 4⟩ = some st ∧
      in_interval sphere_interval st.p_glob ∧
      ∀ q ∈ st.particles, q.p_val ≠ INFINITY → in_interval sphere_interval q.p :=
  have hcr : ∀ q ∈ [(⟨INFINITY, [0, 0], [400, 400], [400, 400], [0, 0], [0, 0]⟩ : particle_t),
      ⟨INFINITY, [0, 0], [0, 0], [0, 0], [0, 0], [0, 0]⟩], created 2 sphere_interval q := by
    decide!
  ⟨sphere_objective_outside, hcr,
    best_positions_inside ⟨1, 2, 1, 1 / 2, 2, 2, sphere_func⟩ (fun x => sphere_loop x 0) 2
      sphere_interval
      ⟨[⟨INFINITY, [0, 0], [400, 400], [400, 400], [0, 0], [0, 0]⟩,
        ⟨INFINITY, [0, 0], [0, 0], [0, 0], [0, 0], [0, 0]⟩], [400, 400], INFINITY,
        fun _ _ => 3 / 4⟩ 1 rfl sphere_objective_outside (by decide) (by decide) rfl hcr
      (by decide!)⟩

/-! ## Creation of the particles -/

theorem rand_vec_in_interval_eq (size : Nat) (interval : interval_t) (vec : Vec) (rng : Rng)
    (hlen : vec.length = size) :
    rand_vec_in_interval size interval (some vec) rng =
      some ((List.range size).map
          (fun i => interval.start + (interval.«end» - interval.start) * rng (i + size)),
        fun m => rng (m + size + size)) := by
  rw [rand_vec_in_interval, rand_vec_eq size vec rng hlen, Option.some_bind]
  obtain ⟨out, hrun, hl, hin, -⟩ := forLoop_draw_spec
    (fun y => interval.start + (interval.«end» - interval.start) * y) size 0
    ((List.range size).map rng) (fun m => rng (m + size)) (by simp)
  have : out = (List.range size).map
      (fun i => interval.start + (interval.«end» - interval.start) * rng (i + size)) := by
    apply List.ext_getElem?
    intro j
    by_cases hj : j < size
    · rw [hin j (by omega) (by omega)]
      simp [hj]
    · simp only [List.length_map, List.length_range] at hl
      rw [List.getElem?_eq_none (by omega), List.getElem?_eq_none (by simp; omega)]
  rw [← this]
  exact hrun

theorem new_particle_eq (size : Nat) (interval : interval_t) (rng : Rng) :
    new_particle size interval rng =
      some ({ p_val := INFINITY, v := List.replicate size 0,
              x := (List.range size).map
                (fun i => interval.start + (interval.«end» - interval.start) * rng (i + size)),
              p := (List.range size).map
                (fun i => interval.start + (interval.«end» - interval.start) * rng (i + size)),
              r_loc := new_vec size, r_glob := new_vec size },
        fun m => rng (m + size + size)) := by
  rw [new_particle]
  rw [rand_vec_in_interval_eq size interval (new_vec size) rng (by simp [new_vec]),
    Option.some_bind, copy_vec, if_pos (by simp [new_vec])]
  rfl

theorem new_particle_created (size : Nat) (interval : interval_t) (rng : Rng)
    (hint : interval.start ≤ interval.«end») (hrng : ∀ n, 0 ≤ rng n ∧ rng n < 1) :
    ∃ q rng1, new_particle size interval rng = some (q, rng1) ∧ created size interval q ∧
      ∀ n, 0 ≤ rng1 n ∧ rng1 n < 1 := by
  refine ⟨_, _, new_particle_eq size interval rng, ⟨rfl, rfl, rfl, ?_, ?_⟩,
    fun n => hrng _⟩
  · simp [sized, new_vec]
  · intro c hc
    simp only [List.mem_map, List.mem_range] at hc
    obtain ⟨i, -, rfl⟩ := hc
    have h0 := (hrng (i + size)).1
    have h1 := (hrng (i + size)).2
    have hw : 0 ≤ interval.«end» - interval.start := by linarith
    constructor
    · nlinarith [mul_nonneg hw h0]
    · nlinarith [mul_le_mul_of_nonneg_left (le_of_lt h1) hw]

theorem creation_loop_spec (size : Nat) (interval : interval_t)
    (hint : interval.start ≤ interval.«end») :
    ∀ (n i : Nat) (ps : List particle_t) (rng : Rng), (∀ m, 0 ≤ rng m ∧ rng m < 1) →
      (∀ q ∈ ps, created size interval q) →
      ∃ ps1 rng1,
        forLoop (fun _ (s : List particle_t × Rng) =>
            (new_particle size interval s.2).map fun r => (s.1 ++ [r.1], r.2))
          n i (ps, rng) = some (ps1, rng1) ∧
        ps1.length = ps.length + n ∧ ∀ q ∈ ps1, created size interval q := by
  intro n
  induction n with
  | zero =>
    intro i ps rng _ hps
    exact ⟨ps, rng, rfl, rfl, hps⟩
  | succ n ih =>
    intro i ps rng hrng hps
    obtain ⟨q, rng1, hq, hcr, hrng1⟩ := new_particle_created size interval rng hint hrng
    obtain ⟨ps1, rng2, hrun, hlen, hall⟩ := ih (i + 1) (ps ++ [q]) rng1 hrng1 (by
      intro r hr
      rcases List.mem_append.mp hr with h | h
      · exact hps r h
      · rw [List.mem_singleton.mp h]
        exact hcr)
    refine ⟨ps1, rng2, ?_, ?_, hall⟩
    · simp only [forLoop, hq, Option.map_some', Option.some_bind]
      exact hrun
    · rw [hlen]
      simp
      omega

theorem main_init_spec (cfg : Params) (dimensions : Nat) (interval : interval_t) (rng : Rng)
    (workers : Nat → Rng) (hT : 0 < cfg.threads) (hN : 0 < cfg.num_particles)
    (hdiv : cfg.num_particles % cfg.threads = 0)
    (hint : interval.start ≤ interval.«end») (hrng : ∀ n, 0 ≤ rng n ∧ rng n < 1) :
    ∃ st0, main_init cfg dimensions interval rng workers = some st0 ∧
      st0.particles.length = cfg.num_particles ∧
      (∀ q ∈ st0.particles, created dimensions interval q) ∧
      find_min st0.particles cfg.num_particles = some (st0.p_glob, st0.p_glob_val) ∧
      st0.random_data = workers := by
  obtain ⟨ps, rng1, hrun, hlen, hcr⟩ := creation_loop_spec dimensions interval hint
    cfg.num_particles 0 [] rng hrng (by simp)
  simp only [List.length_nil, Nat.zero_add] at hlen
  have hne : ps ≠ [] := by
    intro h
    rw [h] at hlen
    simp at hlen
    omega
  obtain ⟨m, w, hw, hmin, -, -⟩ := find_min_spec ps hne
  rw [hlen] at hmin
  have hwl : w.p.length = (new_vec dimensions).length := by
    rw [(hcr w (List.getElem?_mem hw)).2.2.2.1.2.2.1]
    simp [new_vec]
  refine ⟨{ particles := ps, p_glob := w.p, p_glob_val := w.p_val, random_data := workers },
    ?_, hlen, hcr, hmin, rfl⟩
  rw [main_init, if_neg (by omega), if_neg (by simp [hdiv]), hrun, Option.some_bind]
  simp only
  rw [hmin, Option.some_bind, copy_vec, if_pos hwl]
  rfl

/-! ## Size assertions, creation, random vectors in an interval -/

/-- C11: `member_sum`, `member_diff` and `member_prod` fail exactly when their size
assertion `v1->size == v2->size && v2->size == res->size` does not hold, so they fail for
every pair of operands of unequal length and any result vector; `scalar_prod` fails
exactly when its input and result differ in length; with all lengths equal each of them
returns a vector. -/
theorem vector_ops_fail_on_mismatch (a b res : Vec) (k : ℚ) :
    (member_sum a b res = none ↔ ¬ (a.length = b.length ∧ b.length = res.length)) ∧
    (member_diff a b res = none ↔ ¬ (a.length = b.length ∧ b.length = res.length)) ∧
    (member_prod a b res = none ↔ ¬ (a.length = b.length ∧ b.length = res.length)) ∧
    (scalar_prod a k res = none ↔ a.length ≠ res.length) ∧
    (a.length ≠ b.length →
      member_sum a b res = none ∧ member_diff a b res = none ∧ member_prod a b res = none) ∧
    (a.length = b.length → b.length = res.length →
      (member_sum a b res).isSome ∧ (member_diff a b res).isSome ∧
      (member_prod a b res).isSome ∧ (scalar_prod a k res).isSome) := by
  have hs : member_sum a b res = none ↔ ¬ (a.length = b.length ∧ b.length = res.length) := by
    constructor
    · intro h hc
      rw [member_sum_eq a b res hc.1 hc.2] at h
      cases h
    · intro h
      rw [member_sum, if_neg h]
  have hd : member_diff a b res = none ↔ ¬ (a.length = b.length ∧ b.length = res.length) := by
    constructor
    · intro h hc
      rw [member_diff_eq a b res hc.1 hc.2] at h
      cases h
    · intro h
      rw [member_diff, if_neg h]
  have hp : member_prod a b res = none ↔ ¬ (a.length = b.length ∧ b.length = res.length) := by
    constructor
    · intro h hc
      rw [member_prod_eq a b res hc.1 hc.2] at h
      cases h
    · intro h
      rw [member_prod, if_neg h]
  have hk : scalar_prod a k res = none ↔ a.length ≠ res.length := by
    constructor
    · intro h hc
      rw [scalar_prod_eq a k res hc] at h
      cases h
    · intro h
      rw [scalar_prod, if_neg h]
  refine ⟨hs, hd, hp, hk, ?_, ?_⟩
  · intro hne
    exact ⟨hs.mpr (fun hc => hne hc.1), hd.mpr (fun hc => hne hc.1),
      hp.mpr (fun hc => hne hc.1)⟩
  · intro h1 h2
    rw [member_sum_eq a b res h1 h2, member_diff_eq a b res h1 h2,
      member_prod_eq a b res h1 h2, scalar_prod_eq a k res (h1.trans h2)]
    exact ⟨rfl, rfl, rfl, rfl⟩

theorem vector_ops_fail_on_mismatch_witness :
    (([1, 2] : Vec).length ≠ ([3] : Vec).length ∧
      member_sum [1, 2] [3] [0, 0] = none ∧ member_diff [1, 2] [3] [0, 0] = none ∧
      member_prod [1, 2] [3] [0, 0] = none) ∧
    (([1, 2] : Vec).length = ([3, 4] : Vec).length ∧
      ([3, 4] : Vec).length = ([0, 0] : Vec).length ∧
      (member_sum [1, 2] [3, 4] [0, 0]).isSome ∧ (member_diff [1, 2] [3, 4] [0, 0]).isSome ∧
      (member_prod [1, 2] [3, 4] [0, 0]).isSome ∧ (scalar_prod [1, 2] 5 [0, 0]).isSome) :=
  ⟨⟨by decide, (vector_ops_fail_on_mismatch [1, 2] [3] [0, 0] 5).2.2.2.2.1 (by decide)⟩,
    ⟨rfl, rfl, (vector_ops_fail_on_mismatch [1, 2] [3, 4] [0, 0] 5).2.2.2.2.2 rfl rfl⟩⟩

/-- C12: for an interval with `start ≤ end` and a generator whose draws lie in `[0, 1)`,
`new_particle` returns a particle whose velocity is the zero vector of length `size`,
whose position has length `size` and lies in the interval, whose personal best
position is the position, and whose `p_val` is `INFINITY`. -/
theorem new_particle_fresh (size : Nat) (interval : interval_t) (rng : Rng)
    (hint : interval.start ≤ interval.«end») (hrng : ∀ n, 0 ≤ rng n ∧ rng n < 1) :
    ∃ q rng1, new_particle size interval rng = some (q, rng1) ∧
      q.v = List.replicate size 0 ∧ q.x.length = size ∧ in_interval interval q.x ∧
      q.p = q.x ∧ q.p_val = INFINITY := by
  obtain ⟨q, rng1, hq, hcr, -⟩ := new_particle_created size interval rng hint hrng
  exact ⟨q, rng1, hq, hcr.2.1, hcr.2.2.2.1.2.1, hcr.2.2.2.2, hcr.2.2.1, hcr.1⟩

theorem new_particle_fresh_witness :
    sphere_interval.start ≤ sphere_interval.«end» ∧
    (∀ n : Nat, (0 : ℚ) ≤ (fun _ => (1 / 2 : ℚ)) n ∧ (fun _ => (1 / 2 : ℚ)) n < 1) ∧
    ∃ q rng1, new_particle 2 sphere_interval (fun _ => 1 / 2) = some (q, rng1) ∧
      q.v = List.replicate 2 0 ∧ q.x.length = 2 ∧ in_interval sphere_interval q.x ∧
      q.p = q.x ∧ q.p_val = INFINITY :=
  have hint : sphere_interval.start ≤ sphere_interval.«end» := by decide!
  have hrng : ∀ n : Nat, (0 : ℚ) ≤ (fun _ => (1 / 2 : ℚ)) n ∧ (fun _ => (1 / 2 : ℚ)) n < 1 :=
    fun _ => by norm_num
  ⟨hint, hrng, new_particle_fresh 2 sphere_interval (fun _ => 1 / 2) hint hrng⟩

/-- C13, refuted as stated: with the draws `1/10, 2/10, 3/10, ...`, `rand_vec(1)` returns
`u = [1/10]` and leaves `2/10` as the next draw, while `rand_vec_in_interval(1, [0, 10])`
returns `[2]`, which is not `0 + (10 - 0) * u[0] = 1`, and leaves `3/10` as the next
draw. -/
theorem rand_vec_in_interval_draws_again :
    (rand_vec 1 (some [0]) (fun n => ((n : ℚ) + 1) / 10)).map (fun s => (s.1, s.2 0))
      = some ([1 / 10], 2 / 10) ∧
    (rand_vec_in_interval 1 ⟨0, 10⟩ (some [0]) (fun n => ((n : ℚ) + 1) / 10)).map
      (fun s => (s.1, s.2 0)) = some ([2], 3 / 10) ∧
    (2 : ℚ) ≠ 0 + (10 - 0) * (1 / 10) := by
  decide!

/-- C13, amended: `rand_vec_in_interval(n, [lo, hi])` first runs `rand_vec(n)` and then
draws `n` more numbers: it returns the vector `v` with `v[i] = lo + (hi - lo) * u[i]`,
where `u` is the vector that a second call `rand_vec(n)` returns from the generator
state that the first call leaves, and it advances the generator as the two calls of
`rand_vec(n)` do. -/
theorem rand_vec_in_interval_second_draws (size : Nat) (interval : interval_t)
    (vec : Option Vec) (rng : Rng) (hlen : ∀ w, vec = some w → w.length = size) :
    ∃ (u0 : Vec) (rng1 : Rng) (u : Vec) (rng2 : Rng) (v : Vec),
      rand_vec size vec rng = some (u0, rng1) ∧
      rand_vec size (some u0) rng1 = some (u, rng2) ∧
      rand_vec_in_interval size interval vec rng = some (v, rng2) ∧
      u.length = size ∧ v.length = size ∧
      ∀ (i : Nat) (ui : ℚ), u[i]? = some ui →
        v[i]? = some (interval.start + (interval.«end» - interval.start) * ui) := by
  have key : ∀ w : Vec, w.length = size →
      ∃ (u0 : Vec) (rng1 : Rng) (u : Vec) (rng2 : Rng) (v : Vec),
        rand_vec size (some w) rng = some (u0, rng1) ∧
        rand_vec size (some u0) rng1 = some (u, rng2) ∧
        rand_vec_in_interval size interval (some w) rng = some (v, rng2) ∧
        u.length = size ∧ v.length = size ∧
        ∀ (i : Nat) (ui : ℚ), u[i]? = some ui →
          v[i]? = some (interval.start + (interval.«end» - interval.start) * ui) := by
    intro w hw
    refine ⟨_, _, _, _, _, rand_vec_eq size w rng hw,
      rand_vec_eq size _ (fun m => rng (m + size)) (by simp),
      rand_vec_in_interval_eq size interval w rng hw, by simp, by simp, ?_⟩
    intro i ui hui
    have hi : i < size := by
      by_contra hcon
      rw [List.getElem?_eq_none (by simp; omega)] at hui
      cases hui
    simp only [List.getElem?_map, List.getElem?_range hi, Option.map_some',
      Option.some.injEq] at hui ⊢
    rw [hui]
  cases vec with
  | none => exact key (new_vec size) (by simp [new_vec])
  | some w => exact key w (hlen w rfl)

theorem rand_vec_in_interval_second_draws_witness :
    (∀ w : Vec, some ([0] : Vec) = some w → w.length = 1) ∧
    ∃ (u0 : Vec) (rng1 : Rng) (u : Vec) (rng2 : Rng) (v : Vec),
      rand_vec 1 (some [0]) (fun n => ((n : ℚ) + 1) / 10) = some (u0, rng1) ∧
      rand_vec 1 (some u0) rng1 = some (u, rng2) ∧
      rand_vec_in_interval 1 ⟨0, 10⟩ (some [0]) (fun n => ((n : ℚ) + 1) / 10)
        = some (v, rng2) ∧
      u.length = 1 ∧ v.length = 1 ∧
      ∀ (i : Nat) (ui : ℚ), u[i]? = some ui →
        v[i]? = some ((⟨0, 10⟩ : interval_t).start
          + ((⟨0, 10⟩ : interval_t).«end» - (⟨0, 10⟩ : interval_t).start) * ui) :=
  have hlen : ∀ w : Vec, some ([0] : Vec) = some w → w.length = 1 := by
    intro w hw
    cases hw
    rfl
  ⟨hlen, rand_vec_in_interval_second_draws 1 ⟨0, 10⟩ (some [0])
    (fun n => ((n : ℚ) + 1) / 10) hlen⟩

theorem evaluate_particle_at_infinity (q : particle_t) (f : particle_t → Cost)
    (hval : q.p_val = INFINITY) (hlen : q.x.length = q.p.length) :
    ∃ q1, evaluate_particle q f = some q1 ∧ q1.p_val = f q ∧ q1.p = q.x := by
  refine ⟨_, evaluate_particle_eq q f hlen, ?_⟩
  rw [if_pos (Or.inl hval)]
  exact ⟨rfl, rfl⟩

/-- C18: `new_particle` returns a particle with `p_val = INFINITY`, and the first
`evaluate_particle` call on it, directly or after the first `step` as in the worker loop,
updates the personal best: afterwards `p_val` is the objective's cost at the current
position and the personal best position is the current position. -/
theorem first_evaluate_updates (size : Nat) (interval : interval_t) (rng rng2 : Rng)
    (a b_loc b_glob : ℚ) (p_glob : Vec) (f : particle_t → Cost)
    (hg : p_glob.length = size) :
    ∃ q rng1, new_particle size interval rng = some (q, rng1) ∧ q.p_val = INFINITY ∧
      (∃ q1, evaluate_particle q f = some q1 ∧ q1.p_val = f q ∧ q1.p = q.x) ∧
      (∃ q2 rng3 q3, step a b_loc b_glob q p_glob rng2 = some (q2, rng3) ∧
        evaluate_particle q2 f = some q3 ∧ q3.p_val = f q2 ∧ q3.p = q2.x) := by
  refine ⟨_, _, new_particle_eq size interval rng, rfl, ?_, ?_⟩
  · exact evaluate_particle_at_infinity _ f rfl rfl
  · obtain ⟨q2, rng3, hstep, hs2, -, hval2, -⟩ := step_spec a b_loc b_glob
      { p_val := INFINITY, v := List.replicate size 0,
        x := (List.range size).map
          (fun i => interval.start + (interval.«end» - interval.start) * rng (i + size)),
        p := (List.range size).map
          (fun i => interval.start + (interval.«end» - interval.start) * rng (i + size)),
        r_loc := new_vec size, r_glob := new_vec size }
      p_glob rng2 size (by simp [sized, new_vec]) hg
    obtain ⟨q3, hq3, h1, h2⟩ := evaluate_particle_at_infinity q2 f hval2
      (hs2.2.1.trans hs2.2.2.1.symm)
    exact ⟨q2, rng3, q3, hstep, hq3, h1, h2⟩

theorem first_evaluate_updates_witness :
    ([400, 400] : Vec).length = 2 ∧
    ∃ q rng1, new_particle 2 sphere_interval (fun _ => 1 / 2) = some (q, rng1) ∧
      q.p_val = INFINITY ∧
      (∃ q1, evaluate_particle q sphere_func = some q1 ∧ q1.p_val = sphere_func q ∧
        q1.p = q.x) ∧
      (∃ q2 rng3 q3, step (1 / 2) 2 2 q [400, 400] (fun _ => 3 / 4) = some (q2, rng3) ∧
        evaluate_particle q2 sphere_func = some q3 ∧ q3.p_val = sphere_func q2 ∧
        q3.p = q2.x) :=
  ⟨rfl, first_evaluate_updates 2 sphere_interval (fun _ => 1 / 2) (fun _ => 3 / 4) (1 / 2) 2 2
    [400, 400] sphere_func rfl⟩

/-! ## The ranges of the workers -/

theorem particle_loop_range (cfg : Params) (tid : Nat) (st : State) :
    particle_loop cfg tid st =
      if cfg.threads = 0 then none else
        (forLoop (fun i (s : List particle_t × Rng) =>
            s.1[i]?.bind fun particle =>
              (update_particle cfg st.p_glob particle s.2).map fun r => (s.1.set i r.1, r.2))
          (last_particle cfg tid - first_particle cfg tid) (first_particle cfg tid)
          (st.particles, st.random_data tid)).map fun s =>
        { st with particles := s.1, random_data := Function.update st.random_data tid s.2 } := by
  have h : last_particle cfg tid - first_particle cfg tid = cfg.num_particles / cfg.threads := by
    simp [last_particle, first_particle, particles_per_thread]
  rw [h]
  rfl

/-- C15: for a worker count `T ≥ 1` that divides the particle count `N`, the ranges
`[first_particle, last_particle)` of the workers `0 .. T-1` start at 0, each ends where
the next begins, the last ends at `N`, two different workers share no index, and an
index lies in the range of some worker exactly when it is below `N`. -/
theorem worker_ranges_partition (cfg : Params) (hT : 1 ≤ cfg.threads)
    (hdiv : cfg.num_particles % cfg.threads = 0) :
    first_particle cfg 0 = 0 ∧
    (∀ tid : Nat, last_particle cfg tid = first_particle cfg (tid + 1)) ∧
    last_particle cfg (cfg.threads - 1) = cfg.num_particles ∧
    (∀ t1 t2 i : Nat, first_particle cfg t1 ≤ i → i < last_particle cfg t1 →
      first_particle cfg t2 ≤ i → i < last_particle cfg t2 → t1 = t2) ∧
    (∀ i : Nat, i < cfg.num_particles ↔
      ∃ tid, tid < cfg.threads ∧ first_particle cfg tid ≤ i ∧ i < last_particle cfg tid) := by
  have hN : cfg.threads * (cfg.num_particles / cfg.threads) = cfg.num_particles :=
    Nat.mul_div_cancel' (Nat.dvd_of_mod_eq_zero hdiv)
  simp only [first_particle, last_particle, particles_per_thread]
  generalize cfg.num_particles / cfg.threads = ppt at hN
  have hlast : ∀ tid : Nat, tid * ppt + ppt = (tid + 1) * ppt := fun tid => by ring
  refine ⟨by simp, hlast, ?_, ?_, ?_⟩
  · rw [hlast, Nat.sub_add_cancel hT]
    exact hN
  · intro t1 t2 i h1 h2 h3 h4
    rw [hlast] at h2 h4
    by_contra hne
    rcases Nat.lt_or_gt_of_ne hne with h | h
    · have := Nat.mul_le_mul_right ppt (show t1 + 1 ≤ t2 from h)
      omega
    · have := Nat.mul_le_mul_right ppt (show t2 + 1 ≤ t1 from h)
      omega
  · intro i
    constructor
    · intro hi
      have hppt : 0 < ppt := by
        rcases Nat.eq_zero_or_pos ppt with h | h
        · rw [h, Nat.mul_zero] at hN
          omega
        · exact h
      refine ⟨i / ppt, ?_, Nat.div_mul_le_self i ppt, ?_⟩
      · rw [Nat.div_lt_iff_lt_mul hppt, hN]
        exact hi
      · have h1 := Nat.div_add_mod i ppt
        have h2 := Nat.mod_lt i hppt
        rw [Nat.mul_comm] at h1
        omega
    · rintro ⟨tid, htid, -, h2⟩
      rw [hlast] at h2
      have := Nat.mul_le_mul_right ppt (show tid + 1 ≤ cfg.threads from htid)
      rw [← hN]
      omega

theorem worker_ranges_partition_witness :
    (1 ≤ 2) ∧ (6 % 2 = 0) ∧
    first_particle ⟨2, 6, 1, 0, 0, 0, sphere_func⟩ 0 = 0 ∧
    last_particle ⟨2, 6, 1, 0, 0, 0, sphere_func⟩ 0
      = first_particle ⟨2, 6, 1, 0, 0, 0, sphere_func⟩ 1 ∧
    last_particle ⟨2, 6, 1, 0, 0, 0, sphere_func⟩ 1 = 6 :=
  have h := worker_ranges_partition ⟨2, 6, 1, 0, 0, 0, sphere_func⟩ (by decide) rfl
  ⟨by decide, rfl, h.1, h.2.1 0, h.2.2.1⟩

/-! ## print_vec -/

theorem print_loop_spec (fmt : ℚ → String) :
    ∀ (l pre : Vec) (out : String),
      forLoop (fun i (out : String) => (pre ++ l)[i]?.map fun e => out ++ ", " ++ fmt e)
          l.length pre.length out
        = some (l.foldl (fun acc e => acc ++ ", " ++ fmt e) out) := by
  intro l
  induction l with
  | nil => intro pre out; rfl
  | cons e rest ih =>
    intro pre out
    have hget : (pre ++ e :: rest)[pre.length]? = some e := by
      rw [List.getElem?_append_right (le_refl _)]
      simp
    have hih := ih (pre ++ [e]) (out ++ ", " ++ fmt e)
    simp only [List.append_assoc, List.singleton_append, List.length_append,
      List.length_singleton] at hih
    simp only [List.length_cons, forLoop, hget, Option.map_some', Option.some_bind,
      List.foldl_cons]
    exact hih

theorem intercalate_go_foldl (fmt : ℚ → String) (s : String) :
    ∀ (l : Vec) (acc : String),
      String.intercalate.go acc s (l.map fmt) = l.foldl (fun acc e => acc ++ s ++ fmt e) acc := by
  intro l
  induction l with
  | nil => intro acc; rfl
  | cons e rest ih =>
    intro acc
    simp only [List.map_cons, String.intercalate.go, List.foldl_cons]
    exact ih _

theorem foldl_append_prefix (fmt : ℚ → String) (s pre : String) :
    ∀ (l : Vec) (acc : String),
      l.foldl (fun acc e => acc ++ s ++ fmt e) (pre ++ acc)
        = pre ++ l.foldl (fun acc e => acc ++ s ++ fmt e) acc := by
  intro l
  induction l with
  | nil => intro acc; rfl
  | cons e rest ih =>
    intro acc
    simp only [List.foldl_cons]
    rw [← ih]
    simp only [String.append_assoc]

/-- The output of `print_vec` for two or more elements: one list in braces. -/
theorem print_vec_two_or_more (fmt : ℚ → String) (e0 e1 : ℚ) (rest : Vec) :
    print_vec fmt (e0 :: e1 :: rest) = some (brace_list fmt (e0 :: e1 :: rest)) := by
  have hloop := print_loop_spec fmt (e1 :: rest) [e0] ("" ++ "\x7b" ++ fmt e0)
  simp only [List.singleton_append, List.length_singleton, List.length_cons,
    List.length_nil, Nat.zero_add] at hloop
  simp only [print_vec, List.getElem?_cons_zero, Option.some_bind, List.length_cons,
    Nat.add_sub_cancel]
  rw [if_neg (by omega), hloop]
  have hgo := intercalate_go_foldl fmt ", " (e1 :: rest) (fmt e0)
  simp only [List.map_cons] at hgo
  simp only [Option.map_some', brace_list, List.map_cons, String.intercalate,
    Option.some.injEq]
  rw [hgo, String.empty_append, foldl_append_prefix]

/-- C20, the failing input: for a vector of one element `print_vec` writes the list
twice, `{e0}{e0}`, because the branch `vec->size == 1` does not return; the text of the
specification is `{e0}`. -/
theorem print_vec_one_element_twice (fmt : ℚ → String) (e0 : ℚ) :
    print_vec fmt [e0] = some ("\x7b" ++ fmt e0 ++ "\x7d" ++ "\x7b" ++ fmt e0 ++ "\x7d") ∧
    brace_list fmt [e0] = "\x7b" ++ fmt e0 ++ "\x7d" ∧
    print_vec fmt [e0] ≠ some (brace_list fmt [e0]) := by
  have h1 : print_vec fmt [e0]
      = some ("\x7b" ++ fmt e0 ++ "\x7d" ++ "\x7b" ++ fmt e0 ++ "\x7d") := by
    simp [print_vec, forLoop]
  have h2 : brace_list fmt [e0] = "\x7b" ++ fmt e0 ++ "\x7d" := by
    simp [brace_list, String.intercalate, String.intercalate.go]
  refine ⟨h1, h2, ?_⟩
  rw [h1, h2]
  intro h
  have hl := congrArg String.length (Option.some.inj h)
  simp only [String.length_append] at hl
  have : ("\x7b" : String).length = 1 := rfl
  have : ("\x7d" : String).length = 1 := rfl
  omega

/-! ## The global best value over the iterations -/

theorem updated_unfold (cfg : Params) (p_glob : Vec) (q q2 : particle_t) (d : Nat)
    (hs : sized d q) (hpg : p_glob.length = d) (h : updated cfg p_glob q q2) :
    ∃ q1, evaluate_particle q1 cfg.func = some q2 ∧ sized d q1 ∧ q1.p = q.p ∧
      q1.p_val = q.p_val ∧ q2.x = q1.x := by
  obtain ⟨rng, rng2, hrun⟩ := h
  obtain ⟨q1, rng1, hstep, hs1, hp1, hval1, -⟩ :=
    step_spec cfg.a cfg.b_loc cfg.b_glob q p_glob rng d hs hpg
  have hev := evaluate_particle_eq q1 cfg.func (hs1.2.1.trans hs1.2.2.1.symm)
  rw [update_particle, hstep, Option.some_bind, hev] at hrun
  simp only [Option.map_some', Option.some.injEq, Prod.mk.injEq] at hrun
  obtain ⟨hq2, -⟩ := hrun
  refine ⟨q1, by rw [hev, hq2], hs1, hp1, hval1, ?_⟩
  rw [← hq2]
  split <;> rfl

theorem updated_le (cfg : Params) (p_glob : Vec) (q q2 : particle_t) (d : Nat)
    (hs : sized d q) (hpg : p_glob.length = d) (h : updated cfg p_glob q q2) :
    q2.p_val ≤ q.p_val := by
  obtain ⟨q1, hev, -, -, hval1, -⟩ := updated_unfold cfg p_glob q q2 d hs hpg h
  rw [← hval1]
  exact evaluate_particle_le q1 q2 cfg.func hev

theorem updated_p_val (cfg : Params) (f : Vec → Cost) (hfunc : cfg.func = fun q => f q.x)
    (p_glob : Vec) (q q2 : particle_t) (d : Nat) (hs : sized d q) (hpg : p_glob.length = d)
    (h : updated cfg p_glob q q2) :
    q2.p_val = if f q2.x < q.p_val then f q2.x else q.p_val := by
  obtain ⟨q1, hev, -, -, hval1, hx⟩ := updated_unfold cfg p_glob q q2 d hs hpg h
  have := evaluate_particle_p_val q1 q2 cfg.func hev
  rw [hfunc] at this
  simp only at this
  rw [hx, ← hval1]
  exact this

theorem iteration_value_le (cfg : Params) (d : Nat) (st : State) (hst : sized_state cfg d st)
    (hatt : ∃ (m : Nat) (w : particle_t), st.particles[m]? = some w ∧ st.p_glob_val = w.p_val) :
    ∃ st1, iteration cfg st = some st1 ∧ sized_state cfg d st1 ∧
      st1.p_glob_val ≤ st.p_glob_val ∧ (∀ q ∈ st1.particles, st1.p_glob_val ≤ q.p_val) ∧
      ∃ (m : Nat) (w : particle_t), st1.particles[m]? = some w ∧ st1.p_glob_val = w.p_val := by
  obtain ⟨st1, m1, w1, hit, hs1, hin, hout, hw1, -, hv1, hle, -⟩ := iteration_spec cfg d st hst
  obtain ⟨m, w, hw, hval⟩ := hatt
  refine ⟨st1, hit, hs1, ?_, ?_, m1, w1, hw1, hv1⟩
  · obtain ⟨q1, hq1⟩ := getElem?_some_of_length_eq st.particles st1.particles
      (hst.2.2.1.trans hs1.2.2.1.symm) m w hw
    have hmono : q1.p_val ≤ w.p_val := by
      by_cases hi : m < cfg.threads * (cfg.num_particles / cfg.threads)
      · exact updated_le cfg st.p_glob w q1 d (hst.2.2.2.2 w (List.getElem?_mem hw))
          hst.2.2.2.1 (hin m w q1 hi hw hq1)
      · rw [hout m (by omega), hw] at hq1
        rw [Option.some.inj hq1]
    rw [hv1, hval]
    exact le_trans (hle m q1 hq1) hmono
  · intro q hq
    obtain ⟨i, hi⟩ := List.getElem?_of_mem hq
    rw [hv1]
    exact hle i q hi

/-- C19: in a run from a state whose global best is the result of `find_min` over the
particles, as `main` sets it, the iterations `k` and `k + 1` complete, the global best
value after iteration `k + 1` is at most the value after iteration `k` (before the first
iteration for `k = 0`), and after iteration `k + 1` it is at most the `p_val` of every
particle. -/
theorem global_best_value_non_increasing (cfg : Params) (d : Nat) (st0 : State) (k : Nat)
    (hst : sized_state cfg d st0)
    (hmin : find_min st0.particles cfg.num_particles = some (st0.p_glob, st0.p_glob_val)) :
    ∃ sk sk1, iterations_loop cfg k st0 = some sk ∧
      iterations_loop cfg (k + 1) st0 = some sk1 ∧
      sk1.p_glob_val ≤ sk.p_glob_val ∧ ∀ q ∈ sk1.particles, sk1.p_glob_val ≤ q.p_val := by
  have hinv : ∀ n : Nat, ∃ sn, iterations_loop cfg n st0 = some sn ∧ sized_state cfg d sn ∧
      ∃ (m : Nat) (w : particle_t), sn.particles[m]? = some w ∧ sn.p_glob_val = w.p_val := by
    intro n
    induction n with
    | zero =>
      have hne : st0.particles ≠ [] := by
        intro h
        have := hst.2.2.1
        rw [h] at this
        have h0 := hst.2.1
        simp at this
        omega
      obtain ⟨m, w, hw, hmin1, -, -⟩ := find_min_spec st0.particles hne
      rw [hst.2.2.1, hmin] at hmin1
      simp only [Option.some.injEq, Prod.mk.injEq] at hmin1
      exact ⟨st0, rfl, hst, m, w, hw, hmin1.2⟩
    | succ n ih =>
      obtain ⟨sn, hrun, hsn, hatt⟩ := ih
      obtain ⟨sn1, hit, hsn1, -, -, hatt1⟩ := iteration_value_le cfg d sn hsn hatt
      exact ⟨sn1, by rw [iterations_loop_succ, hrun, Option.some_bind, hit], hsn1, hatt1⟩
  obtain ⟨sk, hrun, hsk, hatt⟩ := hinv k
  obtain ⟨sk1, hit, -, hle, hall, -⟩ := iteration_value_le cfg d sk hsk hatt
  exact ⟨sk, sk1, hrun, by rw [iterations_loop_succ, hrun, Option.some_bind, hit], hle, hall⟩

theorem global_best_value_non_increasing_witness :
    sized_state ⟨1, 2, 2, 1 / 2, 2, 2, sphere_func⟩ 2
      ⟨[⟨INFINITY, [0, 0], [100, 100], [100, 100], [0, 0], [0, 0]⟩,
        ⟨INFINITY, [0, 0], [0, 0], [0, 0], [0, 0], [0, 0]⟩], [100, 100], INFINITY,
        fun _ _ => 3 / 4⟩ ∧
    ∃ sk sk1,
      iterations_loop ⟨1, 2, 2, 1 / 2, 2, 2, sphere_func⟩ 1
        ⟨[⟨INFINITY, [0, 0], [100, 100], [100, 100], [0, 0], [0, 0]⟩,
          ⟨INFINITY, [0, 0], [0, 0], [0, 0], [0, 0], [0, 0]⟩], [100, 100], INFINITY,
          fun _ _ => 3 / 4⟩ = some sk ∧
      iterations_loop ⟨1, 2, 2, 1 / 2, 2, 2, sphere_func⟩ (1 + 1)
        ⟨[⟨INFINITY, [0, 0], [100, 100], [100, 100], [0, 0], [0, 0]⟩,
          ⟨INFINITY, [0, 0], [0, 0], [0, 0], [0, 0], [0, 0]⟩], [100, 100], INFINITY,
          fun _ _ => 3 / 4⟩ = some sk1 ∧
      sk1.p_glob_val ≤ sk.p_glob_val ∧ ∀ q ∈ sk1.particles, sk1.p_glob_val ≤ q.p_val :=
  have hst : sized_state ⟨1, 2, 2, 1 / 2, 2, 2, sphere_func⟩ 2
      ⟨[⟨INFINITY, [0, 0], [100, 100], [100, 100], [0, 0], [0, 0]⟩,
        ⟨INFINITY, [0, 0], [0, 0], [0, 0], [0, 0], [0, 0]⟩], [100, 100], INFINITY,
        fun _ _ => 3 / 4⟩ :=
    ⟨by decide, by decide, rfl, rfl, by decide⟩
  ⟨hst, global_best_value_non_increasing ⟨1, 2, 2, 1 / 2, 2, 2, sphere_func⟩ 2 _ 1 hst
    (by decide!)⟩

/-! ## One worker, one particle -/

theorem single_particle_iteration (cfg : Params) (f : Vec → Cost) (d : Nat) (st : State)
    (q : particle_t) (hfunc : cfg.func = fun q => f q.x) (hT : cfg.threads = 1)
    (hN : cfg.num_particles = 1) (hps : st.particles = [q]) (hsz : sized d q)
    (hv : q.v = List.replicate d 0) (hp : q.p = q.x) (hg : st.p_glob = q.x)
    (hval : q.p_val = INFINITY ∨ q.p_val = f q.x) :
    ∃ st1 q1, iteration cfg st = some st1 ∧ st1.particles = [q1] ∧ sized d q1 ∧
      q1.v = List.replicate d 0 ∧ q1.x = q.x ∧ q1.p = q.x ∧ q1.p_val = f q.x ∧
      st1.p_glob = q.x ∧ st1.p_glob_val = f q.x := by
  have hst : sized_state cfg d st := by
    refine ⟨by omega, by omega, by rw [hps, hN]; rfl, by rw [hg]; exact hsz.2.1, ?_⟩
    intro r hr
    rw [hps] at hr
    rw [List.mem_singleton.mp hr]
    exact hsz
  obtain ⟨st1, m, w, hit, hs1, hin, -, hw, hg1, hv1, -, -⟩ := iteration_spec cfg d st hst
  have hlen1 : st1.particles.length = 1 := hs1.2.2.1.trans hN
  obtain ⟨q1, hq1⟩ : ∃ q1, st1.particles = [q1] := List.length_eq_one.mp hlen1
  have hm : m = 0 := by
    by_contra hne
    rw [hq1, List.getElem?_eq_none (by simp; omega)] at hw
    cases hw
  subst hm
  rw [hq1] at hw
  simp only [List.getElem?_cons_zero, Option.some.injEq] at hw
  subst hw
  have hup : updated cfg st.p_glob q q1 :=
    hin 0 q q1 (by rw [hT, hN]; decide) (by rw [hps]; rfl) (by rw [hq1]; rfl)
  have hpg : st.p_glob.length = d := hst.2.2.2.1
  obtain ⟨-, -, hcase, -, hfix⟩ := updated_props cfg f hfunc st.p_glob q q1 d hsz hpg hup
  obtain ⟨hv1z, hx1⟩ := hfix hv hg.symm (hp.trans hg.symm)
  have hx1q : q1.x = q.x := hx1.trans hg
  have hpv := updated_p_val cfg f hfunc st.p_glob q q1 d hsz hpg hup
  rw [hx1q] at hpv
  have hval1 : q1.p_val = f q.x := by
    rw [hpv]
    rcases hval with h | h
    · rw [h]
      split
      · rfl
      · next hn => exact (not_lt_top_iff.mp hn).symm
    · rw [h, if_neg (lt_irrefl _)]
  have hp1 : q1.p = q.x := by
    rcases hcase with ⟨h, -⟩ | ⟨h, -⟩
    · exact h.trans hp
    · exact h.trans hx1q
  have hsz1 : sized d q1 := hs1.2.2.2.2 q1 (by rw [hq1]; exact List.mem_singleton_self q1)
  exact ⟨st1, q1, hit, hq1, hsz1, hv1z, hx1q, hp1, hval1, hg1.trans hp1, hv1.trans hval1⟩

/-- C14: in a run with 1 worker and 1 particle, created with velocity 0 at a position
`x0` that is also its personal best and the global best, after every iteration the
velocity is 0 and the position is `x0`, and after one or more iterations the global
best position is `x0` and the global best value is the objective's cost at `x0`.  This
holds for all coefficients, so for `a = b_loc = b_glob = 0`.  For the sphere objective in
1 dimension with those coefficients, the particle created at 3 and 1 iteration, the run
of `main` ends with velocity 0, position 3 and global best value 9 at position 3. -/
theorem single_particle_run (cfg : Params) (f : Vec → Cost) (d : Nat)
    (interval : interval_t) (st0 : State) (q0 : particle_t) (n : Nat)
    (hfunc : cfg.func = fun q => f q.x) (hT : cfg.threads = 1) (hN : cfg.num_particles = 1)
    (hps : st0.particles = [q0]) (hcr : created d interval q0) (hg : st0.p_glob = q0.x) :
    (∃ st q, iterations_loop cfg n st0 = some st ∧ st.particles = [q] ∧
      q.v = List.replicate d 0 ∧ q.x = q0.x ∧
      (1 ≤ n → st.p_glob = q0.x ∧ st.p_glob_val = f q0.x)) ∧
    (main_run ⟨1, 1, 1, 0, 0, 0, sphere_func⟩ 1 sphere_interval (fun _ => 503 / 1000)
        (fun _ _ => 3 / 4)).map
      (fun st => (st.particles.map (fun q => (q.v, q.x)), st.p_glob, st.p_glob_val))
      = some ([([0], [3])], [3], ((9 : ℚ) : Cost)) := by
  refine ⟨?_, by decide!⟩
  obtain ⟨hval0, hv0, hp0, hsz0, -⟩ := hcr
  have hinv : ∃ st q, iterations_loop cfg n st0 = some st ∧ st.particles = [q] ∧
      sized d q ∧ q.v = List.replicate d 0 ∧ q.x = q0.x ∧ q.p = q0.x ∧
      st.p_glob = q0.x ∧ (q.p_val = INFINITY ∨ q.p_val = f q0.x) ∧
      (1 ≤ n → st.p_glob_val = f q0.x) := by
    induction n with
    | zero =>
      exact ⟨st0, q0, rfl, hps, hsz0, hv0, rfl, hp0, hg, Or.inl hval0, fun h => by omega⟩
    | succ n ih =>
      obtain ⟨st, q, hrun, hq, hsz, hv, hx, hp, hgl, hval, -⟩ := ih
      rw [← hx] at hp hgl hval
      obtain ⟨st1, q1, hit, hq1, hsz1, hv1, hx1, hp1, hval1, hg1, hgv1⟩ :=
        single_particle_iteration cfg f d st q hfunc hT hN hq hsz hv hp hgl hval
      rw [hx] at hx1 hp1 hval1 hg1 hgv1
      exact ⟨st1, q1, by rw [iterations_loop_succ, hrun, Option.some_bind, hit], hq1, hsz1,
        hv1, hx1, hp1, hg1, Or.inr hval1, fun _ => hgv1⟩
  obtain ⟨st, q, hrun, hq, -, hv, hx, -, hgl, -, hgv⟩ := hinv
  exact ⟨st, q, hrun, hq, hv, hx, fun h => ⟨hgl, hgv h⟩⟩

theorem single_particle_run_witness :
    created 1 sphere_interval ⟨INFINITY, [0], [3], [3], [0], [0]⟩ ∧
    ∃ st q, iterations_loop ⟨1, 1, 2, 0, 0, 0, sphere_func⟩ 2
        ⟨[⟨INFINITY, [0], [3], [3], [0], [0]⟩], [3], INFINITY, fun _ _ => 3 / 4⟩ = some st ∧
      st.particles = [q] ∧ q.v = List.replicate 1 0 ∧ q.x = [3] ∧
      (1 ≤ 2 → st.p_glob = [3] ∧ st.p_glob_val = sphere_loop [3] 0) :=
  have hcr : created 1 sphere_interval ⟨INFINITY, [0], [3], [3], [0], [0]⟩ := by decide!
  ⟨hcr, (single_particle_run ⟨1, 1, 2, 0, 0, 0, sphere_func⟩ (fun x => sphere_loop x 0) 1
    sphere_interval ⟨[⟨INFINITY, [0], [3], [3], [0], [0]⟩], [3], INFINITY, fun _ _ => 3 / 4⟩
    ⟨INFINITY, [0], [3], [3], [0], [0]⟩ 2 rfl rfl rfl rfl hcr rfl).1⟩

/-! ## The partitioned run and the run of one worker -/

theorem update_particle_exact (cfg : Params) (p_glob : Vec) (q : particle_t) (rng rng2 : Rng)
    (d : Nat) (hs : sized d q) (hpg : p_glob.length = d)
    (hagree : ∀ m, m < 2 * d → rng m = rng2 m) :
    ∃ q1, update_particle cfg p_glob q rng = some (q1, fun m => rng (m + 2 * d)) ∧
      update_particle cfg p_glob q rng2 = some (q1, fun m => rng2 (m + 2 * d)) ∧
      sized d q1 := by
  obtain ⟨hv, hx, hp, hl, hg⟩ := hs
  have e1 : (List.range d).map rng2 = (List.range d).map rng := by
    apply List.map_congr_left
    intro m hm
    exact (hagree m (by have := List.mem_range.mp hm; omega)).symm
  have e2 : (List.range d).map (fun m => rng2 (m + d)) = (List.range d).map (fun m => rng (m + d)) := by
    apply List.map_congr_left
    intro m hm
    exact (hagree (m + d) (by have := List.mem_range.mp hm; omega)).symm
  have h1 := step_eq cfg.a cfg.b_loc cfg.b_glob q p_glob rng d hv hx hp hl hg hpg
  have h2 := step_eq cfg.a cfg.b_loc cfg.b_glob q p_glob rng2 d hv hx hp hl hg hpg
  rw [e1, e2] at h2
  have hshift : ∀ r : Rng, (fun m => r (m + d + d)) = fun m => r (m + 2 * d) := by
    intro r
    funext m
    congr 1
    omega
  rw [hshift] at h1 h2
  obtain ⟨q1, hq1, hq2, hsz⟩ : ∃ q1,
      step cfg.a cfg.b_loc cfg.b_glob q p_glob rng = some (q1, fun m => rng (m + 2 * d)) ∧
      step cfg.a cfg.b_loc cfg.b_glob q p_glob rng2 = some (q1, fun m => rng2 (m + 2 * d)) ∧
      sized d q1 := ⟨_, h1, h2, by simp [sized, hv, hx, hp, hpg]⟩
  have hev := evaluate_particle_eq q1 cfg.func (hsz.2.1.trans hsz.2.2.1.symm)
  refine ⟨if q1.p_val = INFINITY ∨ cfg.func q1 < q1.p_val
    then { q1 with p_val := cfg.func q1, p := q1.x } else q1, ?_, ?_, ?_⟩
  · rw [update_particle, hq1, Option.some_bind, hev]
    rfl
  · rw [update_particle, hq2, Option.some_bind, hev]
    rfl
  · obtain ⟨h1, h2, h3, h4, h5⟩ := hsz
    split
    · exact ⟨h1, h2, h2, h4, h5⟩
    · exact ⟨h1, h2, h3, h4, h5⟩

theorem forLoop_update_exact (cfg : Params) (p_glob : Vec) (d : Nat)
    (hpg : p_glob.length = d) :
    ∀ (n k : Nat) (ps : List particle_t) (rng : Rng), k + n ≤ ps.length →
      (∀ q ∈ ps, sized d q) →
      ∃ ps1,
        forLoop (fun i (s : List particle_t × Rng) =>
            s.1[i]?.bind fun particle =>
              (update_particle cfg p_glob particle s.2).map fun r => (s.1.set i r.1, r.2))
          n k (ps, rng) = some (ps1, fun m => rng (m + n * (2 * d))) ∧
        ps1.length = ps.length ∧ (∀ q ∈ ps1, sized d q) ∧
        (∀ (j : Nat) (q : particle_t), j < n → ps[k + j]? = some q →
          ∃ q1 r1, update_particle cfg p_glob q (fun m => rng (m + j * (2 * d)))
              = some (q1, r1) ∧ ps1[k + j]? = some q1) ∧
        (∀ i : Nat, i < k ∨ k + n ≤ i → ps1[i]? = ps[i]?) := by
  intro n
  induction n with
  | zero =>
    intro k ps rng _ hP
    refine ⟨ps, ?_, rfl, hP, ?_, fun i _ => rfl⟩
    · simp [forLoop]
    · intro j q hj
      omega
  | succ n ih =>
    intro k ps rng hk hP
    have hlt : k < ps.length := by omega
    have hget : ps[k]? = some ps[k] := List.getElem?_eq_getElem hlt
    obtain ⟨q1, hq1, -, hs1⟩ := update_particle_exact cfg p_glob ps[k] rng rng d
      (hP _ (List.getElem_mem hlt)) hpg (fun _ _ => rfl)
    have hP2 : ∀ q ∈ ps.set k q1, sized d q := by
      intro q hq
      rcases List.mem_or_eq_of_mem_set hq with h | h
      · exact hP q h
      · exact h ▸ hs1
    obtain ⟨ps2, hrun, hlen, hP3, hin, hout⟩ := ih (k + 1) (ps.set k q1)
      (fun m => rng (m + 2 * d)) (by simp only [List.length_set]; omega) hP2
    refine ⟨ps2, ?_, by simpa using hlen, hP3, ?_, ?_⟩
    · simp only [forLoop, hget, hq1, Option.map_some', Option.some_bind]
      rw [hrun]
      congr 2
      funext m
      congr 1
      have : (n + 1) * (2 * d) = n * (2 * d) + 2 * d := by ring
      omega
    · intro j q hj hq
      rcases Nat.eq_zero_or_pos j with h0 | hpos
      · subst h0
        rw [Nat.add_zero, hget] at hq
        cases hq
        refine ⟨q1, fun m => rng (m + 2 * d), ?_, ?_⟩
        · simpa using hq1
        · rw [Nat.add_zero, hout k (Or.inl (by omega)), List.getElem?_set_eq_of_lt _ hlt]
      · obtain ⟨e, rfl⟩ : ∃ e, j = e + 1 := ⟨j - 1, by omega⟩
        have hidx : k + (e + 1) = k + 1 + e := by omega
        rw [hidx] at hq ⊢
        obtain ⟨q2, r2, hq2, hps2⟩ := hin e q (by omega) (by
          rw [List.getElem?_set_ne (by omega)]
          exact hq)
        refine ⟨q2, r2, ?_, hps2⟩
        have hfun : (fun m => rng (m + (e + 1) * (2 * d)))
            = fun m => rng (m + e * (2 * d) + 2 * d) := by
          funext m
          congr 1
          have : (e + 1) * (2 * d) = e * (2 * d) + 2 * d := by ring
          omega
        rw [hfun]
        exact hq2
    · intro i hi
      rw [hout i (by omega), List.getElem?_set_ne (by omega)]

theorem particle_loop_exact (cfg : Params) (d tid : Nat) (st : State)
    (hst : sized_state cfg d st) (htid : tid < cfg.threads) :
    ∃ st1, particle_loop cfg tid st = some st1 ∧ st1.p_glob = st.p_glob ∧
      st1.p_glob_val = st.p_glob_val ∧ sized_state cfg d st1 ∧
      st1.random_data = Function.update st.random_data tid
        (fun m => st.random_data tid (m + cfg.num_particles / cfg.threads * (2 * d))) ∧
      (∀ (j : Nat) (q : particle_t), j < cfg.num_particles / cfg.threads →
        st.particles[tid * (cfg.num_particles / cfg.threads) + j]? = some q →
        ∃ q1 r1, update_particle cfg st.p_glob q
            (fun m => st.random_data tid (m + j * (2 * d))) = some (q1, r1) ∧
          st1.particles[tid * (cfg.num_particles / cfg.threads) + j]? = some q1) ∧
      (∀ i : Nat, i < tid * (cfg.num_particles / cfg.threads) ∨
        tid * (cfg.num_particles / cfg.threads) + cfg.num_particles / cfg.threads ≤ i →
        st1.particles[i]? = st.particles[i]?) := by
  obtain ⟨hT, hN, hlen, hpg, hsz⟩ := hst
  have hbound : tid * (cfg.num_particles / cfg.threads) + cfg.num_particles / cfg.threads
      ≤ st.particles.length := by
    have h1 : (tid + 1) * (cfg.num_particles / cfg.threads)
        ≤ cfg.threads * (cfg.num_particles / cfg.threads) :=
      Nat.mul_le_mul_right _ htid
    have h2 : cfg.threads * (cfg.num_particles / cfg.threads) ≤ cfg.num_particles :=
      Nat.mul_div_le _ _
    rw [hlen]
    calc tid * (cfg.num_particles / cfg.threads) + cfg.num_particles / cfg.threads
        = (tid + 1) * (cfg.num_particles / cfg.threads) := by ring
      _ ≤ cfg.num_particles := le_trans h1 h2
  obtain ⟨ps1, hrun, hlen1, hsz1, hin, hout⟩ :=
    forLoop_update_exact cfg st.p_glob d hpg (cfg.num_particles / cfg.threads)
      (tid * (cfg.num_particles / cfg.threads)) st.particles (st.random_data tid) hbound hsz
  refine ⟨⟨ps1, st.p_glob, st.p_glob_val, Function.update st.random_data tid
      (fun m => st.random_data tid (m + cfg.num_particles / cfg.threads * (2 * d)))⟩,
    ?_, rfl, rfl, ⟨hT, hN, hlen1.trans hlen, hpg, hsz1⟩, rfl, hin, hout⟩
  rw [particle_loop, if_neg (by omega)]
  simp only
  rw [hrun]
  rfl

theorem workers_loop_exact (cfg : Params) (d : Nat) (st : State) (hst : sized_state cfg d st) :
    ∀ t : Nat, t ≤ cfg.threads →
      ∃ st1, forLoop (fun tid s => particle_loop cfg tid s) t 0 st = some st1 ∧
        st1.p_glob = st.p_glob ∧ st1.p_glob_val = st.p_glob_val ∧ sized_state cfg d st1 ∧
        (∀ tid : Nat, tid < t → st1.random_data tid
          = fun m => st.random_data tid (m + cfg.num_particles / cfg.threads * (2 * d))) ∧
        (∀ tid : Nat, t ≤ tid → st1.random_data tid = st.random_data tid) ∧
        (∀ (tid j : Nat) (q : particle_t), tid < t → j < cfg.num_particles / cfg.threads →
          st.particles[tid * (cfg.num_particles / cfg.threads) + j]? = some q →
          ∃ q1 r1, update_particle cfg st.p_glob q
              (fun m => st.random_data tid (m + j * (2 * d))) = some (q1, r1) ∧
            st1.particles[tid * (cfg.num_particles / cfg.threads) + j]? = some q1) ∧
        (∀ i : Nat, t * (cfg.num_particles / cfg.threads) ≤ i →
          st1.particles[i]? = st.particles[i]?) := by
  intro t
  have hloop := particle_loop_exact cfg d
  generalize cfg.num_particles / cfg.threads = ppt at hloop ⊢
  induction t with
  | zero =>
    intro _
    refine ⟨st, rfl, rfl, rfl, hst, ?_, fun _ _ => rfl, ?_, fun i _ => rfl⟩
    · intro tid h; omega
    · intro tid j q h; omega
  | succ t ih =>
    intro ht
    obtain ⟨st1, hrun1, hg1, hv1, hs1, hrd1, hrd1b, hin1, hout1⟩ := ih (by omega)
    obtain ⟨st2, hrun2, hg2, hv2, hs2, hrd2, hin2, hout2⟩ := hloop t st1 hs1 (by omega)
    have hsplit : (t + 1) * ppt = t * ppt + ppt := by ring
    refine ⟨st2, ?_, hg2.trans hg1, hv2.trans hv1, hs2, ?_, ?_, ?_, ?_⟩
    · rw [forLoop_succ_last, hrun1, Option.some_bind, Nat.zero_add]
      exact hrun2
    · intro tid htid
      rw [hrd2]
      by_cases h : tid = t
      · subst h
        rw [Function.update_same, hrd1b tid (le_refl _)]
      · rw [Function.update_noteq h]
        exact hrd1 tid (by omega)
    · intro tid htid
      rw [hrd2, Function.update_noteq (by omega)]
      exact hrd1b tid (by omega)
    · intro tid j q htid hj hq
      by_cases h : tid = t
      · subst h
        obtain ⟨q1, r1, hq1, hp1⟩ := hin2 j q hj (by
          rw [hout1 _ (by omega)]
          exact hq)
        rw [hg1, hrd1b tid (le_refl _)] at hq1
        exact ⟨q1, r1, hq1, hp1⟩
      · obtain ⟨q1, r1, hq1, hp1⟩ := hin1 tid j q (by omega) hj hq
        refine ⟨q1, r1, hq1, ?_⟩
        have hle : (tid + 1) * ppt ≤ t * ppt := Nat.mul_le_mul_right ppt (by omega)
        have hs : (tid + 1) * ppt = tid * ppt + ppt := by ring
        rw [hout2 _ (Or.inl (by omega))]
        exact hp1
    · intro i hi
      rw [hout2 i (Or.inr (by omega)), hout1 i (by omega)]

theorem reduce_exact (cfg : Params) (d : Nat) (st : State) (hst : sized_state cfg d st) :
    ∃ w : particle_t, find_min st.particles cfg.num_particles = some (w.p, w.p_val) ∧
      reduce cfg st = some ⟨st.particles, w.p, w.p_val, st.random_data⟩ ∧
      sized_state cfg d ⟨st.particles, w.p, w.p_val, st.random_data⟩ := by
  obtain ⟨hT, hN, hlen, hpg, hsz⟩ := hst
  have hne : st.particles ≠ [] := by
    intro h
    rw [h] at hlen
    simp at hlen
    omega
  obtain ⟨m, w, hw, hmin, -, -⟩ := find_min_spec st.particles hne
  rw [hlen] at hmin
  have hwp : w.p.length = st.p_glob.length := by
    rw [hpg]
    exact (hsz w (List.getElem?_mem hw)).2.2.1
  refine ⟨w, hmin, ?_, ⟨hT, hN, hlen, hwp.trans hpg, hsz⟩⟩
  rw [reduce, hmin, Option.some_bind, copy_vec, if_pos hwp]
  rfl

theorem iteration_agree (cfg : Params) (d : Nat) (stT st1 : State)
    (hst : sized_state cfg d stT) (hdiv : cfg.num_particles % cfg.threads = 0)
    (hps : st1.particles = stT.particles) (hg : st1.p_glob = stT.p_glob)
    (hdraws : same_draws cfg d stT.random_data (st1.random_data 0)) :
    ∃ sT s1, iteration cfg stT = some sT ∧
      iteration { cfg with threads := 1 } st1 = some s1 ∧ sized_state cfg d sT ∧
      s1.particles = sT.particles ∧ s1.p_glob = sT.p_glob ∧ s1.p_glob_val = sT.p_glob_val ∧
      same_draws cfg d sT.random_data (s1.random_data 0) := by
  have hst1 : sized_state { cfg with threads := 1 } d st1 :=
    ⟨Nat.one_pos, hst.2.1, hps ▸ hst.2.2.1, hg ▸ hst.2.2.2.1, hps ▸ hst.2.2.2.2⟩
  obtain ⟨uT, hrunT, hgT, -, hsT, hrdT, -, hinT, -⟩ :=
    workers_loop_exact cfg d stT hst cfg.threads (le_refl _)
  obtain ⟨u1, hrun1, hg1, -, hs1, hrd1, -, hin1, -⟩ :=
    workers_loop_exact { cfg with threads := 1 } d st1 hst1 1 (le_refl _)
  dsimp only at hrun1 hrd1 hin1
  simp only [Nat.div_one] at hrd1 hin1
  have hN : cfg.threads * (cfg.num_particles / cfg.threads) = cfg.num_particles :=
    Nat.mul_div_cancel' (Nat.dvd_of_mod_eq_zero hdiv)
  have hlenT : uT.particles.length = cfg.num_particles := hsT.2.2.1
  have hlen1 : u1.particles.length = cfg.num_particles := hs1.2.2.1
  have hlen0 : stT.particles.length = cfg.num_particles := hst.2.2.1
  unfold same_draws at hdraws ⊢
  generalize hppt : cfg.num_particles / cfg.threads = ppt at hN hrdT hinT hdraws ⊢
  -- the particles after the update phase agree
  have hparts : u1.particles = uT.particles := by
    apply List.ext_getElem?
    intro i
    by_cases hi : i < cfg.num_particles
    · have hpos : 0 < ppt := by
        rcases Nat.eq_zero_or_pos ppt with h | h
        · rw [h, Nat.mul_zero] at hN
          omega
        · exact h
      have hdm := Nat.div_add_mod i ppt
      have hmod := Nat.mod_lt i hpos
      have htid : i / ppt < cfg.threads := by
        rw [Nat.div_lt_iff_lt_mul hpos, hN]
        exact hi
      have hidx : i / ppt * ppt + i % ppt = i := by
        rw [Nat.mul_comm]
        exact hdm
      obtain ⟨q, hq⟩ : ∃ q, stT.particles[i]? = some q :=
        ⟨_, List.getElem?_eq_getElem (by omega)⟩
      obtain ⟨qT, rT, hqT, hpT⟩ := hinT (i / ppt) (i % ppt) q htid hmod
        (by rw [hidx]; exact hq)
      obtain ⟨q1, r1, hq1, hp1⟩ := hin1 0 i q Nat.one_pos hi
        (by rw [Nat.zero_mul, Nat.zero_add, hps]; exact hq)
      rw [Nat.zero_mul, Nat.zero_add] at hp1
      rw [hidx] at hpT
      obtain ⟨Q, hQ1, hQ2, -⟩ := update_particle_exact cfg stT.p_glob q
        (fun m => stT.random_data (i / ppt) (m + i % ppt * (2 * d)))
        (fun m => st1.random_data 0 (m + i * (2 * d))) d
        (hst.2.2.2.2 _ (List.getElem?_mem hq)) hst.2.2.2.1 (by
          intro m hm
          have h := hdraws (i / ppt) 0 (i % ppt) m htid hmod hm
          rw [Nat.zero_mul, Nat.zero_add, Nat.zero_mul, Nat.zero_add, hidx] at h
          show stT.random_data (i / ppt) (m + i % ppt * (2 * d))
            = st1.random_data 0 (m + i * (2 * d))
          rw [Nat.add_comm m, Nat.add_comm m]
          exact h)
      rw [hQ1] at hqT
      rw [hg] at hq1
      have hq1b : update_particle cfg stT.p_glob q
          (fun m => st1.random_data 0 (m + i * (2 * d))) = some (q1, r1) := hq1
      rw [hQ2] at hq1b
      simp only [Option.some.injEq, Prod.mk.injEq] at hqT hq1b
      rw [hp1, hpT, ← hqT.1, ← hq1b.1]
    · rw [List.getElem?_eq_none (by omega), List.getElem?_eq_none (by omega)]
  obtain ⟨wT, hminT, hredT, hsT2⟩ := reduce_exact cfg d uT hsT
  obtain ⟨w1, hmin1, hred1, -⟩ := reduce_exact { cfg with threads := 1 } d u1 hs1
  dsimp only at hmin1
  rw [hparts, hminT] at hmin1
  simp only [Option.some.injEq, Prod.mk.injEq] at hmin1
  refine ⟨⟨uT.particles, wT.p, wT.p_val, uT.random_data⟩,
    ⟨u1.particles, w1.p, w1.p_val, u1.random_data⟩,
    by rw [iteration, hrunT, Option.some_bind, hredT],
    by rw [iteration, hrun1, Option.some_bind, hred1], hsT2, hparts, hmin1.1.symm,
    hmin1.2.symm, ?_⟩
  intro tid k j m htid hj hm
  have hL : uT.random_data tid ((k * ppt + j) * (2 * d) + m)
      = stT.random_data tid ((k * ppt + j) * (2 * d) + m + ppt * (2 * d)) := by
    rw [hrdT tid htid]
  have hR : u1.random_data 0 ((k * cfg.num_particles + tid * ppt + j) * (2 * d) + m)
      = st1.random_data 0 ((k * cfg.num_particles + tid * ppt + j) * (2 * d) + m
          + cfg.num_particles * (2 * d)) := by
    rw [hrd1 0 Nat.one_pos]
  show uT.random_data tid _ = u1.random_data 0 _
  rw [hL, hR]
  have h := hdraws tid (k + 1) j m htid hj hm
  have e1 : (k * ppt + j) * (2 * d) + m + ppt * (2 * d) = ((k + 1) * ppt + j) * (2 * d) + m := by
    ring
  have e2 : (k * cfg.num_particles + tid * ppt + j) * (2 * d) + m + cfg.num_particles * (2 * d)
      = ((k + 1) * cfg.num_particles + tid * ppt + j) * (2 * d) + m := by
    ring
  rw [e1, e2]
  exact h

/-- C16: for a worker count that divides the particle count, a partitioned run and a run
with one worker that start from the same particles and the same global best, and whose
workers draw the same numbers for every particle in every iteration (`same_draws`), both
complete every iteration and have after every iteration the same particles, the same
global best position and the same global best value; in both runs worker 0 applies
`find_min` to all particles. -/
theorem partitioned_run_agrees (cfg : Params) (d : Nat) (stT st1 : State) (n : Nat)
    (hst : sized_state cfg d stT) (hdiv : cfg.num_particles % cfg.threads = 0)
    (hps : st1.particles = stT.particles) (hg : st1.p_glob = stT.p_glob)
    (hv : st1.p_glob_val = stT.p_glob_val)
    (hdraws : same_draws cfg d stT.random_data (st1.random_data 0)) :
    ∃ sT s1, iterations_loop cfg n stT = some sT ∧
      iterations_loop { cfg with threads := 1 } n st1 = some s1 ∧
      s1.particles = sT.particles ∧ s1.p_glob = sT.p_glob ∧
      s1.p_glob_val = sT.p_glob_val := by
  have hinv : ∃ sT s1, iterations_loop cfg n stT = some sT ∧
      iterations_loop { cfg with threads := 1 } n st1 = some s1 ∧ sized_state cfg d sT ∧
      s1.particles = sT.particles ∧ s1.p_glob = sT.p_glob ∧
      s1.p_glob_val = sT.p_glob_val ∧
      same_draws cfg d sT.random_data (s1.random_data 0) := by
    induction n with
    | zero => exact ⟨stT, st1, rfl, rfl, hst, hps, hg, hv, hdraws⟩
    | succ n ih =>
      obtain ⟨sT, s1, hrT, hr1, hsz, hp, hgl, -, hdr⟩ := ih
      obtain ⟨sT1, s11, hiT, hi1, hsz1, hp1, hgl1, hv1, hdr1⟩ :=
        iteration_agree cfg d sT s1 hsz hdiv hp hgl hdr
      exact ⟨sT1, s11, by rw [iterations_loop_succ, hrT, Option.some_bind, hiT],
        by rw [iterations_loop_succ, hr1, Option.some_bind, hi1], hsz1, hp1, hgl1, hv1, hdr1⟩
  obtain ⟨sT, s1, hrT, hr1, -, hp, hgl, hval, -⟩ := hinv
  exact ⟨sT, s1, hrT, hr1, hp, hgl, hval⟩

theorem partitioned_run_agrees_witness :
    same_draws ⟨2, 2, 3, 1 / 2, 2, 2, sphere_func⟩ 1
      (fun tid n => (((4 * (n / 2) + 2 * tid + n % 2) % 5 : Nat) : ℚ) / 5)
      (fun n => ((n % 5 : Nat) : ℚ) / 5) ∧
    ∃ sT s1,
      iterations_loop ⟨2, 2, 3, 1 / 2, 2, 2, sphere_func⟩ 3
        ⟨[⟨INFINITY, [0], [100], [100], [0], [0]⟩, ⟨INFINITY, [0], [0], [0], [0], [0]⟩],
          [100], INFINITY,
          fun tid n => (((4 * (n / 2) + 2 * tid + n % 2) % 5 : Nat) : ℚ) / 5⟩ = some sT ∧
      iterations_loop { (⟨2, 2, 3, 1 / 2, 2, 2, sphere_func⟩ : Params) with threads := 1 } 3
        ⟨[⟨INFINITY, [0], [100], [100], [0], [0]⟩, ⟨INFINITY, [0], [0], [0], [0], [0]⟩],
          [100], INFINITY, fun _ n => ((n % 5 : Nat) : ℚ) / 5⟩ = some s1 ∧
      s1.particles = sT.particles ∧ s1.p_glob = sT.p_glob ∧
      s1.p_glob_val = sT.p_glob_val :=
  have hdraws : same_draws ⟨2, 2, 3, 1 / 2, 2, 2, sphere_func⟩ 1
      (fun tid n => (((4 * (n / 2) + 2 * tid + n % 2) % 5 : Nat) : ℚ) / 5)
      (fun n => ((n % 5 : Nat) : ℚ) / 5) := by
    intro tid k j m _ hj hm
    have hj0 : j = 0 := by
      have : (2 : Nat) / 2 = 1 := rfl
      simp only [this] at hj
      omega
    subst hj0
    have e : 4 * (((k * (2 / 2) + 0) * (2 * 1) + m) / 2) + 2 * tid
        + ((k * (2 / 2) + 0) * (2 * 1) + m) % 2 = (k * 2 + tid * (2 / 2) + 0) * (2 * 1) + m := by
      have : (2 : Nat) / 2 = 1 := rfl
      simp only [this]
      omega
    show (((4 * (((k * (2 / 2) + 0) * (2 * 1) + m) / 2) + 2 * tid
        + ((k * (2 / 2) + 0) * (2 * 1) + m) % 2) % 5 : Nat) : ℚ) / 5 = _
    rw [e]
  ⟨hdraws, partitioned_run_agrees ⟨2, 2, 3, 1 / 2, 2, 2, sphere_func⟩ 1
    ⟨[⟨INFINITY, [0], [100], [100], [0], [0]⟩, ⟨INFINITY, [0], [0], [0], [0], [0]⟩],
      [100], INFINITY, fun tid n => (((4 * (n / 2) + 2 * tid + n % 2) % 5 : Nat) : ℚ) / 5⟩
    ⟨[⟨INFINITY, [0], [100], [100], [0], [0]⟩, ⟨INFINITY, [0], [0], [0], [0], [0]⟩],
      [100], INFINITY, fun _ n => ((n % 5 : Nat) : ℚ) / 5⟩
    3 ⟨by decide, by decide, rfl, rfl, by decide⟩ rfl rfl rfl rfl hdraws⟩

end PSO
